import Mathlib

/-!
Shallow embedding of the multi-relay fetch orchestrator of `nostr-fetch`
(`packages/nostr-fetch/src/fetcher.ts`), together with the helper data
structures of `fetcherHelper.ts` (modelled from the specification where the
implementation file is not available).

Conventions of the embedding:
* JS numbers that hold integer seconds / counts are modelled as `Int`.
* The injected relay pool is modelled as an environment: `eligibleOf` maps an
  input relay-URL list to the list of connected, capability-checked relays
  (`ensureRelays` + NIP check), and `pagesOf` maps a relay URL to the
  successive results of `fetchTillEose` calls issued by the pagination loop
  (one `PageResult` per iteration: the events the driver yielded, whether the
  lazy sequence ended with an error, and the state of the abort signal
  observed after the iteration).
* Signature verification is the injected capability `verify`.
* Async interleaving of relay workers is serialized relay-by-relay; the
  interleaving-independent dedup argument is additionally carried out on an
  explicit arbitrary-interleaving machine (`dedupRun`).
-/

/-- A Nostr event, as in `@nostr-fetch/kernel/nostr` (`NostrEvent`). -/
structure NostrEvent where
  id : String
  pubkey : String
  created_at : Int
  kind : Int
  tags : List (List String)
  content : String
  sig : String
deriving Repr, DecidableEq

/-- JavaScript `Number.MAX_SAFE_INTEGER`, the initial value of
`oldestCreatedAt` in every pagination loop. -/
def maxSafeInteger : Int := 2 ^ 53 - 1

/-- Modelled from the spec: the comparator `createdAtDesc` of
`fetcherHelper.ts` (file not in the sources; only its callers are), which
orders events by `created_at` descending.  Expressed as the total preorder
`a` may precede `b` iff `b.created_at ≤ a.created_at`. -/
def createdAtDescLe (a b : NostrEvent) : Bool := b.created_at ≤ a.created_at

/-- `evs.sort(createdAtDesc)`.  JavaScript `Array.prototype.sort` is a stable
sort (ECMA-262), modelled by the stable `List.mergeSort`. -/
def sortEvents (evs : List NostrEvent) : List NostrEvent :=
  evs.mergeSort createdAtDescLe

/-- The error type thrown on failed `error`-severity argument checks
(`NostrFetchError` in `fetcherHelper.ts`). -/
structure NostrFetchError where
  message : String
deriving Repr, DecidableEq

/-- Severity of an argument check (`assertReq` machinery). -/
inductive CheckSeverity
  | warn
  | error
deriving Repr, DecidableEq

/-- One evaluated argument check: its severity, whether it passed, and the
message attached to it. -/
structure CheckOutcome where
  severity : CheckSeverity
  passed : Bool
  msg : String

/-- Modelled from the spec: `assertReq` of `fetcherHelper.ts` (file not in
the sources).  Checks run in order; a failed check of `error` severity
raises a typed `NostrFetchError`; failed `warn` checks only log. -/
def assertReq (checks : List CheckOutcome) : Except NostrFetchError Unit :=
  match checks.find? (fun c => !c.passed && decide (c.severity = CheckSeverity.error)) with
  | some c => .error ⟨c.msg⟩
  | none => .ok ()

/-- Modelled from the spec: `checkIfTimeRangeIsValid` of `fetcherHelper.ts`:
a time-range filter is invalid exactly when both `since` and `until` are
present and `since > until`. -/
def timeRangeValid (since? until? : Option Int) : Bool :=
  match since?, until? with
  | some s, some u => s ≤ u
  | _, _ => true

/-- Argument validation of `allEventsIterator` / `fetchAllEvents`
(fetcher.ts lines 213-224 / 346-357). -/
def validateAllEvents (relayUrls : List String) (since? until? : Option Int) :
    Except NostrFetchError Unit :=
  assertReq
    [⟨.warn, !relayUrls.isEmpty, "Specify at least 1 relay URL"⟩,
     ⟨.error, timeRangeValid since? until?, "Invalid time range (since > until)"⟩]

/-- Argument validation of `fetchLatestEvents` (fetcher.ts lines 400-407). -/
def validateLatest (relayUrls : List String) (limit : Int) :
    Except NostrFetchError Unit :=
  assertReq
    [⟨.warn, !relayUrls.isEmpty, "Specify at least 1 relay URL"⟩,
     ⟨.error, decide (limit > 0), "\"limit\" should be positive number"⟩]

/-- Argument validation of `fetchLatestEventsPerAuthor`
(fetcher.ts lines 646-650). -/
def validatePerAuthor (limit : Int) : Except NostrFetchError Unit :=
  assertReq [⟨.error, decide (limit > 0), "\"limit\" should be positive number"⟩]

/-- `FetchLatestOptions` as supplied by the caller: every field optional
(absent fields are filled from `defaultFetchLatestOptions` by object
spread). -/
structure FetchLatestOptions where
  skipVerification : Option Bool := none
  connectTimeoutMs : Option Int := none
  abortSubBeforeEoseTimeoutMs : Option Int := none
  limitPerReq : Option Int := none
  reduceVerification : Option Bool := none
deriving Repr, DecidableEq

/-- `FetchLatestOptions` after defaulting (`{...defaultFetchLatestOptions,
...options}`). -/
structure FilledLatestOptions where
  skipVerification : Bool
  connectTimeoutMs : Int
  abortSubBeforeEoseTimeoutMs : Int
  limitPerReq : Int
  reduceVerification : Bool
deriving Repr, DecidableEq

/-- Spread of caller options over `defaultFetchLatestOptions`
(fetcher.ts lines 46-52 and 76-79). -/
def fillLatestOptions (o : FetchLatestOptions) : FilledLatestOptions where
  skipVerification := o.skipVerification.getD false
  connectTimeoutMs := o.connectTimeoutMs.getD 5000
  abortSubBeforeEoseTimeoutMs := o.abortSubBeforeEoseTimeoutMs.getD 10000
  limitPerReq := o.limitPerReq.getD 5000
  reduceVerification := o.reduceVerification.getD true

/-- The option layering done by `fetchLastEvent` / `fetchLastEventPerAuthor`
(fetcher.ts lines 540-547, 849-856): the default of
`abortSubBeforeEoseTimeoutMs` is overridden to 1000, but a caller-supplied
value still wins. -/
def lastEventOptions (o : FetchLatestOptions) : FetchLatestOptions :=
  { o with abortSubBeforeEoseTimeoutMs := some (o.abortSubBeforeEoseTimeoutMs.getD 1000) }

/-- `skipVerification` passed to the per-relay driver
(fetcher.ts lines 416-420, 659-663): skip the "full" verification when
`reduceVerification` is enabled. -/
def subOptsSkipVerification (filled : FilledLatestOptions) : Bool :=
  filled.skipVerification || filled.reduceVerification

/-- `MAX_LIMIT_PER_REQ` (fetcher.ts line 33). -/
def MAX_LIMIT_PER_REQ : Int := 5000

/-- `MAX_LIMIT_PER_REQ_IN_BACKPRESSURE` (fetcher.ts line 34). -/
def MAX_LIMIT_PER_REQ_IN_BACKPRESSURE : Int := 500

/-- `MIN_HIGH_WATER_MARK` (fetcher.ts line 36). -/
def MIN_HIGH_WATER_MARK : Int := 5000

/-- `AllEventsIterOptions` after defaulting. -/
structure FilledAllEventsIterOptions where
  skipVerification : Bool
  connectTimeoutMs : Int
  abortSubBeforeEoseTimeoutMs : Int
  limitPerReq : Int
  enableBackpressure : Bool
deriving Repr, DecidableEq

/-- Caller-supplied `AllEventsIterOptions`. -/
structure AllEventsIterOptions where
  skipVerification : Option Bool := none
  connectTimeoutMs : Option Int := none
  abortSubBeforeEoseTimeoutMs : Option Int := none
  limitPerReq : Option Int := none
  enableBackpressure : Option Bool := none
deriving Repr, DecidableEq

/-- Spread of caller options over `defaultAllEventsIterOptions`
(fetcher.ts lines 58-61, 226-229). -/
def fillAllEventsIterOptions (o : AllEventsIterOptions) : FilledAllEventsIterOptions where
  skipVerification := o.skipVerification.getD false
  connectTimeoutMs := o.connectTimeoutMs.getD 5000
  abortSubBeforeEoseTimeoutMs := o.abortSubBeforeEoseTimeoutMs.getD 10000
  limitPerReq := o.limitPerReq.getD 5000
  enableBackpressure := o.enableBackpressure.getD false

/-- `finalOpts.limitPerReq` of `allEventsIterator` (fetcher.ts lines 231-237):
the per-request limit is capped at `MAX_LIMIT_PER_REQ_IN_BACKPRESSURE` when
backpressure is enabled. -/
def finalLimitPerReq (filled : FilledAllEventsIterOptions) : Int :=
  if filled.enableBackpressure then
    min filled.limitPerReq MAX_LIMIT_PER_REQ_IN_BACKPRESSURE
  else filled.limitPerReq

/-- The channel high-water mark of `allEventsIterator`
(fetcher.ts lines 243-246); `none` when backpressure is disabled. -/
def highWaterMark (filled : FilledAllEventsIterOptions) (numEligibleRelays : Nat) :
    Option Int :=
  if filled.enableBackpressure then
    some (max (finalLimitPerReq filled * numEligibleRelays) MIN_HIGH_WATER_MARK)
  else none

/-- The `limit` field of each refined filter sent in a REQ by
`allEventsIterator` (fetcher.ts line 271). -/
def allEventsReqLimit (filled : FilledAllEventsIterOptions) : Int :=
  min (finalLimitPerReq filled) MAX_LIMIT_PER_REQ

/-- Outcome of one `fetchTillEose` lazy sequence: it either ended cleanly
(EOSE / NOTICE / timeout / abort) or raised a transport error to the
consumer. -/
inductive PageOutcome
  | eose
  | errored
deriving Repr, DecidableEq

/-- One iteration's interaction with the per-relay driver: the events the
driver yielded (in delivery order, possibly truncated by an error), how the
sequence ended, and whether `abortSignal.aborted` was observed afterwards. -/
structure PageResult where
  events : List NostrEvent
  outcome : PageOutcome
  abortedAfter : Bool
deriving Repr, DecidableEq

/-- State of the inner `for await` scan of one iteration of the
`allEventsIterator` relay worker (fetcher.ts lines 275-293). -/
structure AllIterScan where
  localSeen : List String
  globalSeen : List String
  sent : List NostrEvent
  gotNewEvent : Bool
  oldestCreatedAt : Int
deriving Repr, DecidableEq

/-- Handling of one delivered event by the `allEventsIterator` relay worker
(fetcher.ts lines 280-292): local dedup, `oldestCreatedAt` update, global
dedup, channel send. -/
def allEventsHandleEvent (st : AllIterScan) (e : NostrEvent) : AllIterScan :=
  if st.localSeen.contains e.id then st
  else
    let st1 : AllIterScan :=
      { st with
        gotNewEvent := true
        localSeen := st.localSeen ++ [e.id]
        oldestCreatedAt :=
          if e.created_at < st.oldestCreatedAt then e.created_at else st.oldestCreatedAt }
    if st1.globalSeen.contains e.id then st1
    else { st1 with globalSeen := st1.globalSeen ++ [e.id], sent := st1.sent ++ [e] }

/-- State of one `allEventsIterator` relay worker across iterations.
`untilTrace` records every value `nextUntil` takes (initial value included);
`reqTrace` records, per iteration, the requested `until` and the events the
driver delivered for it. -/
structure AllIterLoopState where
  nextUntil : Int
  localSeen : List String
  globalSeen : List String
  sent : List NostrEvent
  untilTrace : List Int
  reqTrace : List (Int × List NostrEvent)
deriving Repr, DecidableEq

/-- The subscription loop of one `allEventsIterator` relay worker
(fetcher.ts lines 264-317).  Each `PageResult` is the outcome of one
`fetchTillEose` call; an exhausted oracle ends the run (a finite prefix of
the real loop, which only affects liveness, not the safety properties
proved below). -/
def allEventsLoop : List PageResult → AllIterLoopState → AllIterLoopState
  | [], st => st
  | pr :: rest, st =>
    let scan := pr.events.foldl allEventsHandleEvent
      ⟨st.localSeen, st.globalSeen, st.sent, false, maxSafeInteger⟩
    let st' : AllIterLoopState :=
      { st with
        localSeen := scan.localSeen
        globalSeen := scan.globalSeen
        sent := scan.sent
        reqTrace := st.reqTrace ++ [(st.nextUntil, pr.events)] }
    match pr.outcome with
    | .errored => st'
    | .eose =>
      if !scan.gotNewEvent then st'
      else if pr.abortedAfter then st'
      else
        let nu := scan.oldestCreatedAt + 1
        allEventsLoop rest { st' with nextUntil := nu, untilTrace := st'.untilTrace ++ [nu] }

/-- A fresh `allEventsIterator` relay-worker run: `initialUntil` is
`timeRangeFilter.until ?? currUnixtimeSec()`; `globalSeen` and `sent` are
the shared state inherited from the fetch. -/
def allEventsRunRelay (pages : List PageResult) (initialUntil : Int)
    (globalSeen : List String) (sent : List NostrEvent) : AllIterLoopState :=
  allEventsLoop pages ⟨initialUntil, [], globalSeen, sent, [initialUntil], []⟩

/-- The fan-in of `allEventsIterator` over its eligible relays, with the
relay workers serialized in relay order (one admissible interleaving of the
cooperative scheduler); returns the events sent on the channel, in order. -/
def allEventsCollect (pagesOf : String → List PageResult) (eligible : List String)
    (initialUntil : Int) : List NostrEvent :=
  (eligible.foldl
    (fun (acc : List String × List NostrEvent) rurl =>
      let st := allEventsRunRelay (pagesOf rurl) initialUntil acc.1 acc.2
      (st.globalSeen, st.sent))
    ([], [])).2

/-- `allEventsIterator` (fetcher.ts lines 207-324): argument validation,
relay selection, then the fan-in of per-relay pagination loops.  The
environment is `(eligibleOf, pagesOf)`; `now` stands for
`currUnixtimeSec()`. -/
def allEventsIterator (eligibleOf : List String → List String)
    (pagesOf : String → List PageResult) (relayUrls : List String)
    (since? until? : Option Int) (now : Int) :
    Except NostrFetchError (List NostrEvent) :=
  match validateAllEvents relayUrls since? until? with
  | .error e => .error e
  | .ok _ =>
    .ok (allEventsCollect pagesOf (eligibleOf relayUrls) (until?.getD now))

/-- `fetchAllEvents` (fetcher.ts lines 340-379): drain the iterator into an
array and sort it by `created_at` descending when `sort` is set. -/
def fetchAllEvents (eligibleOf : List String → List String)
    (pagesOf : String → List PageResult) (relayUrls : List String)
    (since? until? : Option Int) (now : Int) (sort : Bool) :
    Except NostrFetchError (List NostrEvent) :=
  match allEventsIterator eligibleOf pagesOf relayUrls since? until? now with
  | .error e => .error e
  | .ok evs => .ok (if sort then sortEvents evs else evs)

/-- State of the inner `for await` scan of one iteration of the
`fetchLatestEvents` relay worker (fetcher.ts lines 454-472). -/
structure LatestScan where
  localSeen : List String
  globalSeen : List String
  sent : List NostrEvent
  numNewEvents : Nat
  oldestCreatedAt : Int
deriving Repr, DecidableEq

/-- Handling of one delivered event by the `fetchLatestEvents` relay
worker (fetcher.ts lines 458-471). -/
def latestHandleEvent (st : LatestScan) (e : NostrEvent) : LatestScan :=
  if st.localSeen.contains e.id then st
  else
    let st1 : LatestScan :=
      { st with
        numNewEvents := st.numNewEvents + 1
        localSeen := st.localSeen ++ [e.id]
        oldestCreatedAt :=
          if e.created_at < st.oldestCreatedAt then e.created_at else st.oldestCreatedAt }
    if st1.globalSeen.contains e.id then st1
    else { st1 with globalSeen := st1.globalSeen ++ [e.id], sent := st1.sent ++ [e] }

/-- State of one `fetchLatestEvents` relay worker across iterations. -/
structure LatestLoopState where
  nextUntil : Int
  remainingLimit : Int
  localSeen : List String
  globalSeen : List String
  sent : List NostrEvent
  untilTrace : List Int
  reqTrace : List (Int × List NostrEvent)
deriving Repr, DecidableEq

/-- The subscription loop of one `fetchLatestEvents` relay worker
(fetcher.ts lines 444-494). -/
def latestLoop : List PageResult → LatestLoopState → LatestLoopState
  | [], st => st
  | pr :: rest, st =>
    let scan := pr.events.foldl latestHandleEvent
      ⟨st.localSeen, st.globalSeen, st.sent, 0, maxSafeInteger⟩
    let st' : LatestLoopState :=
      { st with
        localSeen := scan.localSeen
        globalSeen := scan.globalSeen
        sent := scan.sent
        reqTrace := st.reqTrace ++ [(st.nextUntil, pr.events)] }
    match pr.outcome with
    | .errored => st'
    | .eose =>
      let st'' := { st' with remainingLimit := st'.remainingLimit - scan.numNewEvents }
      if scan.numNewEvents = 0 || st''.remainingLimit ≤ 0 then st''
      else if pr.abortedAfter then st''
      else
        let nu := scan.oldestCreatedAt + 1
        latestLoop rest { st'' with nextUntil := nu, untilTrace := st''.untilTrace ++ [nu] }

/-- A fresh `fetchLatestEvents` relay-worker run (fetcher.ts lines 440-442). -/
def latestRunRelay (pages : List PageResult) (initialUntil limit : Int)
    (globalSeen : List String) (sent : List NostrEvent) : LatestLoopState :=
  latestLoop pages ⟨initialUntil, limit, [], globalSeen, sent, [initialUntil], []⟩

/-- The fan-in of `fetchLatestEvents` over its eligible relays, relay
workers serialized in relay order; returns the events collected from the
channel (fetcher.ts lines 430-505). -/
def latestCollect (pagesOf : String → List PageResult) (eligible : List String)
    (initialUntil limit : Int) : List NostrEvent :=
  (eligible.foldl
    (fun (acc : List String × List NostrEvent) rurl =>
      let st := latestRunRelay (pagesOf rurl) initialUntil limit acc.1 acc.2
      (st.globalSeen, st.sent))
    ([], [])).2

/-- The "reduced verification" collection loop (fetcher.ts lines 513-521
and 806-815): walk the sorted events, keep those whose signature verifies,
and stop as soon as `limit` verified events have been collected. -/
def verifiedLoop (verify : NostrEvent → Bool) (limit : Int) :
    List NostrEvent → List NostrEvent → List NostrEvent
  | [], acc => acc
  | e :: rest, acc =>
    if verify e then
      let acc' := acc ++ [e]
      if (acc'.length : Int) ≥ limit then acc' else verifiedLoop verify limit rest acc'
    else verifiedLoop verify limit rest acc

/-- Post-processing shared by `fetchLatestEvents` (fetcher.ts lines 502-522)
and the per-author merger (lines 797-816): sort the deduped collection by
`created_at` descending, then either slice the first `limit` events or, in
reduced-verification mode, collect the first `limit` events whose signature
verifies. -/
def latestPostProcess (verify : NostrEvent → Bool) (filled : FilledLatestOptions)
    (limit : Int) (evs : List NostrEvent) : List NostrEvent :=
  let sorted := sortEvents evs
  if filled.skipVerification || !filled.reduceVerification then sorted.take limit.toNat
  else verifiedLoop verify limit sorted []

/-- `fetchLatestEvents` (fetcher.ts lines 394-523). -/
def fetchLatestEvents (verify : NostrEvent → Bool)
    (eligibleOf : List String → List String) (pagesOf : String → List PageResult)
    (relayUrls : List String) (initialUntil limit : Int)
    (options : FetchLatestOptions) : Except NostrFetchError (List NostrEvent) :=
  match validateLatest relayUrls limit with
  | .error e => .error e
  | .ok _ =>
    let filled := fillLatestOptions options
    .ok (latestPostProcess verify filled limit
      (latestCollect pagesOf (eligibleOf relayUrls) initialUntil limit))

/-- `fetchLastEvent` (fetcher.ts lines 535-550): `fetchLatestEvents` with
`limit = 1` and the 1000 ms default for `abortSubBeforeEoseTimeoutMs`;
returns the first element of the result (`undefined` when empty). -/
def fetchLastEvent (verify : NostrEvent → Bool)
    (eligibleOf : List String → List String) (pagesOf : String → List PageResult)
    (relayUrls : List String) (initialUntil : Int)
    (options : FetchLatestOptions) : Except NostrFetchError (Option NostrEvent) :=
  match fetchLatestEvents verify eligibleOf pagesOf relayUrls initialUntil 1
      (lastEventOptions options) with
  | .error e => .error e
  | .ok latest1 => .ok latest1.head?

/-- Result state of `EventBuckets.add`. -/
inductive BucketAddState
  | opened
  | fulfilled
  | dropped
deriving Repr, DecidableEq

/-- Result of `EventBuckets.add`: the state, and the bucket's events exactly
when the insert fulfilled the bucket. -/
structure BucketAddResult where
  state : BucketAddState
  events : Option (List NostrEvent)
deriving Repr, DecidableEq

/-- Modelled from the spec: `EventBuckets` of `fetcherHelper.ts` (file not
in the sources; behaviour fixed by spec section 4.3 and by the scenarios of
`fetcherHelper.spec.ts`).  An insertion-ordered table of per-key event
buckets, each capped at `limitPerKey` events. -/
structure EventBuckets where
  buckets : List (String × List NostrEvent)
  limitPerKey : Int
deriving Repr, DecidableEq

/-- Constructor: one empty bucket per key. -/
def EventBuckets.make (keys : List String) (cap : Int) : EventBuckets :=
  ⟨keys.map (fun k => (k, [])), cap⟩

/-- Modelled from the spec: `add(key, event)`.  Unknown key: `dropped`.
Bucket already at the cap: `dropped`.  Otherwise the event is pushed;
`fulfilled` (with the bucket's contents) when the push reaches the cap,
`opened` while still below it. -/
def EventBuckets.add (b : EventBuckets) (key : String) (ev : NostrEvent) :
    BucketAddResult × EventBuckets :=
  match b.buckets.lookup key with
  | none => (⟨.dropped, none⟩, b)
  | some evs =>
    if (evs.length : Int) < b.limitPerKey then
      let evs' := evs ++ [ev]
      let b' : EventBuckets :=
        { b with buckets := b.buckets.map (fun p => if p.1 = key then (p.1, evs') else p) }
      if (evs'.length : Int) = b.limitPerKey then (⟨.fulfilled, some evs'⟩, b')
      else (⟨.opened, none⟩, b')
    else (⟨.dropped, none⟩, b)

/-- `getBucket(key)`: current contents, or `none` for an unknown key. -/
def EventBuckets.getBucket (b : EventBuckets) (key : String) : Option (List NostrEvent) :=
  b.buckets.lookup key

/-- Modelled from the spec: `calcKeysAndLimitForNextReq()`: the keys whose
bucket is not yet fulfilled, and the sum of their remaining capacities. -/
def EventBuckets.calcKeysAndLimitForNextReq (b : EventBuckets) : List String × Int :=
  let unfulfilled := b.buckets.filter (fun p => (p.2.length : Int) < b.limitPerKey)
  (unfulfilled.map (fun p => p.1),
   (unfulfilled.map (fun p => b.limitPerKey - p.2.length)).sum)

/-- Resolution of a one-shot latch (`Deferred.resolve`): only the first
resolution of a key is retained. -/
def resolveLatch (resolved : List (String × List NostrEvent)) (key : String)
    (evs : List NostrEvent) : List (String × List NostrEvent) :=
  if (resolved.lookup key).isSome then resolved else resolved ++ [(key, evs)]

/-- `resolveAllOnEarlyBreak` (fetcher.ts lines 697-702): resolve the latch
of every author of this relay with the bucket's current contents. -/
def resolveAllOnEarlyBreak (authors : List String) (buckets : EventBuckets)
    (resolved : List (String × List NostrEvent)) : List (String × List NostrEvent) :=
  authors.foldl (fun acc pk => resolveLatch acc pk ((buckets.getBucket pk).getD [])) resolved

/-- State of the inner `for await` scan of one iteration of the per-author
fetcher worker (fetcher.ts lines 722-744). -/
structure PerAuthorScan where
  localSeen : List String
  buckets : EventBuckets
  resolved : List (String × List NostrEvent)
  gotNewEvent : Bool
  oldestCreatedAt : Int
deriving Repr, DecidableEq

/-- Handling of one delivered event by the per-author fetcher worker
(fetcher.ts lines 726-743): local dedup, `oldestCreatedAt` update, bucket
insert keyed by the event's pubkey, latch resolution on fulfillment. -/
def perAuthorHandleEvent (st : PerAuthorScan) (e : NostrEvent) : PerAuthorScan :=
  if st.localSeen.contains e.id then st
  else
    let oldest := if e.created_at < st.oldestCreatedAt then e.created_at else st.oldestCreatedAt
    let res := st.buckets.add e.pubkey e
    let resolved' :=
      match res.1.state, res.1.events with
      | .fulfilled, some evs => resolveLatch st.resolved e.pubkey evs
      | _, _ => st.resolved
    { localSeen := st.localSeen ++ [e.id]
      buckets := res.2
      resolved := resolved'
      gotNewEvent := true
      oldestCreatedAt := oldest }

/-- State of one per-author fetcher worker across iterations. -/
structure PerAuthorLoopState where
  nextUntil : Int
  localSeen : List String
  buckets : EventBuckets
  resolved : List (String × List NostrEvent)
  untilTrace : List Int
  reqTrace : List (Int × List NostrEvent)
deriving Repr, DecidableEq

/-- The subscription loop of one per-author fetcher worker
(fetcher.ts lines 704-766).  An exhausted oracle resolves the remaining
latches and ends the run, like the driver failing. -/
def perAuthorLoop (authors : List String) :
    List PageResult → PerAuthorLoopState → PerAuthorLoopState
  | [], st =>
    if (st.buckets.calcKeysAndLimitForNextReq.1).isEmpty then st
    else { st with resolved := resolveAllOnEarlyBreak authors st.buckets st.resolved }
  | pr :: rest, st =>
    if (st.buckets.calcKeysAndLimitForNextReq.1).isEmpty then st
    else
      let scan := pr.events.foldl perAuthorHandleEvent
        ⟨st.localSeen, st.buckets, st.resolved, false, maxSafeInteger⟩
      let st' : PerAuthorLoopState :=
        { st with
          localSeen := scan.localSeen
          buckets := scan.buckets
          resolved := scan.resolved
          reqTrace := st.reqTrace ++ [(st.nextUntil, pr.events)] }
      match pr.outcome with
      | .errored =>
        { st' with resolved := resolveAllOnEarlyBreak authors st'.buckets st'.resolved }
      | .eose =>
        if !scan.gotNewEvent then
          { st' with resolved := resolveAllOnEarlyBreak authors st'.buckets st'.resolved }
        else if pr.abortedAfter then
          { st' with resolved := resolveAllOnEarlyBreak authors st'.buckets st'.resolved }
        else
          let nu := scan.oldestCreatedAt + 1
          perAuthorLoop authors rest
            { st' with nextUntil := nu, untilTrace := st'.untilTrace ++ [nu] }

/-- A fresh per-author fetcher-worker run for one relay
(fetcher.ts lines 689-702): returns the latch resolutions of this relay,
one per author. -/
def perAuthorRunRelay (authors : List String) (pages : List PageResult)
    (initialUntil limit : Int) : List (String × List NostrEvent) :=
  (perAuthorLoop authors pages
    ⟨initialUntil, [], EventBuckets.make authors limit, [], [initialUntil], []⟩).resolved

/-- The per-author merger body (fetcher.ts lines 783-796): concatenate the
per-relay bucket contents, keeping only the first occurrence of each id. -/
def mergerDeduped (evsPerRelay : List (List NostrEvent)) : List NostrEvent :=
  (evsPerRelay.foldl
    (fun (acc : List NostrEvent × List String) evs =>
      evs.foldl
        (fun (acc : List NostrEvent × List String) e =>
          if acc.2.contains e.id then acc else (acc.1 ++ [e], acc.2 ++ [e.id]))
        acc)
    ([], [])).1

/-- One merger task (fetcher.ts lines 772-817): await the latches of the
relays carrying this author, merge, dedupe, sort and post-process. -/
def mergerRecord (verify : NostrEvent → Bool) (filled : FilledLatestOptions)
    (limit : Int) (relayToAuthors : List (String × List String))
    (resolvedOf : List (List (String × List NostrEvent))) (pubkey : String) :
    List NostrEvent :=
  let evsPerRelay :=
    (relayToAuthors.zip resolvedOf).filterMap
      (fun p => if p.1.2.contains pubkey then some ((p.2.lookup pubkey).getD []) else none)
  latestPostProcess verify filled limit (mergerDeduped evsPerRelay)

/-- First argument of the per-author fetches: either one relay set for all
authors, or one relay set per author (fetcher.ts lines 84-104). -/
inductive AuthorsAndRelays
  | forAllAuthors (authors : List String) (relayUrls : List String)
  | perAuthor (pairs : List (String × List String))
deriving Repr, DecidableEq

/-- The transposition of the per-author form (fetcher.ts lines 592-600):
build the `relay → authors` association in first-appearance order, after
URL normalization (`normalizeUrl`, a kernel utility, is an environment
parameter). -/
def transposeToRelayAuthors (normalizeUrl : String → String)
    (pairs : List (String × List String)) : List (String × List String) :=
  pairs.foldl
    (fun acc p =>
      ((p.2.map normalizeUrl).dedup).foldl
        (fun (acc : List (String × List String)) rurl =>
          match acc.lookup rurl with
          | some authors => acc.map (fun q => if q.1 = rurl then (q.1, authors ++ [p.1]) else q)
          | none => acc ++ [(rurl, [p.1])])
        acc)
    []

/-- `#mapAvailableRelayToAuthors` (fetcher.ts lines 554-618): the mapping of
eligible relays to their authors, and the list of all authors of the input. -/
def mapAvailableRelayToAuthors (eligibleOf : List String → List String)
    (normalizeUrl : String → String) (a2rs : AuthorsAndRelays) :
    List (String × List String) × List String :=
  match a2rs with
  | .forAllAuthors authors relayUrls =>
    ((eligibleOf relayUrls).map (fun rurl => (rurl, authors)), authors)
  | .perAuthor pairs =>
    let rurl2authors := transposeToRelayAuthors normalizeUrl pairs
    ((eligibleOf (rurl2authors.map (fun p => p.1))).filterMap
       (fun rurl => (rurl2authors.lookup rurl).map (fun authors => (rurl, authors))),
     pairs.map (fun p => p.1))

/-- `fetchLatestEventsPerAuthor` (fetcher.ts lines 640-825): one record per
author, in merger order (serialized in author order here), each carrying the
merged, deduped, sorted and post-processed events of that author. -/
def fetchLatestEventsPerAuthor (verify : NostrEvent → Bool)
    (eligibleOf : List String → List String) (normalizeUrl : String → String)
    (pagesOf : String → List PageResult) (a2rs : AuthorsAndRelays)
    (initialUntil limit : Int) (options : FetchLatestOptions) :
    Except NostrFetchError (List (String × List NostrEvent)) :=
  match validatePerAuthor limit with
  | .error e => .error e
  | .ok _ =>
    let filled := fillLatestOptions options
    let m := mapAvailableRelayToAuthors eligibleOf normalizeUrl a2rs
    let relayToAuthors := m.1
    let allAuthors := m.2
    let resolvedOf :=
      relayToAuthors.map (fun p => perAuthorRunRelay p.2 (pagesOf p.1) initialUntil limit)
    .ok (allAuthors.map
      (fun pk => (pk, mergerRecord verify filled limit relayToAuthors resolvedOf pk)))

/-- `fetchLastEventPerAuthor` (fetcher.ts lines 844-870): the per-author
fetch with `limit = 1` and the 1000 ms default sub-request timeout, each
record mapped to its first event. -/
def fetchLastEventPerAuthor (verify : NostrEvent → Bool)
    (eligibleOf : List String → List String) (normalizeUrl : String → String)
    (pagesOf : String → List PageResult) (a2rs : AuthorsAndRelays)
    (initialUntil : Int) (options : FetchLatestOptions) :
    Except NostrFetchError (List (String × Option NostrEvent)) :=
  match fetchLatestEventsPerAuthor verify eligibleOf normalizeUrl pagesOf a2rs
      initialUntil 1 (lastEventOptions options) with
  | .error e => .error e
  | .ok records => .ok (records.map (fun r => (r.1, r.2.head?)))

/-- Shared state of the arbitrary-interleaving dedup machine: the per-worker
`localSeenEventIds`, the shared `globalSeenEventIds`, and the events sent on
the output channel. -/
structure GlobalDedupState where
  locals : List (List String)
  globalSeen : List String
  out : List NostrEvent
deriving Repr, DecidableEq

/-- One delivery `(worker index, event)` processed by the dedup logic of
fetcher.ts lines 280-292, for an arbitrary interleaving of relay workers
(the event-handling body runs atomically on the cooperative scheduler). -/
def dedupStep (st : GlobalDedupState) (d : Nat × NostrEvent) : GlobalDedupState :=
  let ls := st.locals.getD d.1 []
  if ls.contains d.2.id then st
  else
    let locals' := st.locals.set d.1 (ls ++ [d.2.id])
    if st.globalSeen.contains d.2.id then { st with locals := locals' }
    else
      { locals := locals'
        globalSeen := st.globalSeen ++ [d.2.id]
        out := st.out ++ [d.2] }

/-- A run of the dedup machine over an arbitrary delivery trace, starting
from `numWorkers` fresh workers. -/
def dedupRun (numWorkers : Nat) (trace : List (Nat × NostrEvent)) : GlobalDedupState :=
  trace.foldl dedupStep ⟨List.replicate numWorkers [], [], []⟩

theorem lookup_eq_some_of_mem_of_nodupKeys {β : Type} {l : List (String × β)} {k : String}
    {v : β} (nd : (l.map Prod.fst).Nodup) (h : (k, v) ∈ l) : l.lookup k = some v := by
  induction l with
  | nil => cases h
  | cons p rest ih =>
    obtain ⟨k', v'⟩ := p
    simp only [List.map_cons, List.nodup_cons, List.mem_map] at nd
    rcases List.mem_cons.mp h with h1 | h1
    · cases h1
      simp [List.lookup]
    · have hk : k ≠ k' := by
        rintro rfl
        exact nd.1 ⟨(k, v), h1, rfl⟩
      have hbeq : (k == k') = false := by simp [hk]
      simp only [List.lookup, hbeq]
      exact ih nd.2 h1

theorem mem_filter_map_fst_iff {β : Type} (P : String × β → Bool) {l : List (String × β)}
    (nd : (l.map Prod.fst).Nodup) (k : String) :
    k ∈ (l.filter P).map Prod.fst ↔ ∃ v, l.lookup k = some v ∧ P (k, v) = true := by
  induction l with
  | nil => simp
  | cons p rest ih =>
    obtain ⟨k', v'⟩ := p
    simp only [List.map_cons, List.nodup_cons, List.mem_map] at nd
    by_cases hk : k = k'
    · subst hk
      have hnot : k ∉ (rest.filter P).map Prod.fst := by
        intro hmem
        obtain ⟨q, hq, hq1⟩ := List.mem_map.mp hmem
        exact nd.1 ⟨q, (List.mem_filter.mp hq).1, hq1⟩
      by_cases hP : P (k, v') = true
      · simp [List.filter_cons, hP, List.lookup]
      · simp only [List.filter_cons, hP, Bool.false_eq_true, if_false, List.lookup,
          beq_self_eq_true, if_true]
        constructor
        · intro hmem
          exact absurd hmem hnot
        · rintro ⟨v, hv, hPv⟩
          cases hv
          exact absurd hPv hP
    · have hlk : (((k', v') :: rest).lookup k) = rest.lookup k := by
        have hbeq : (k == k') = false := by simp [hk]
        simp only [List.lookup, hbeq]
      rw [hlk]
      by_cases hP : P (k', v') = true
      · simp only [List.filter_cons, hP, if_true, List.map_cons, List.mem_cons]
        rw [← ih nd.2]
        simp [hk]
      · simp only [List.filter_cons, hP, Bool.false_eq_true, if_false]
        exact ih nd.2

/-- C9: In `allEventsIterator`, enabling backpressure caps the per-request
limit at `min(limitPerReq, 500)` and sets the channel high-water mark to
`max(limitPerReq' × |eligible relays|, 5000)` (with `limitPerReq'` the
capped limit); without backpressure no high-water mark is configured and
each REQ's limit is `min(limitPerReq, 5000)`. -/
theorem allEventsIterator_backpressure_c9 (o : AllEventsIterOptions) (n : Nat) :
    (allEventsReqLimit (fillAllEventsIterOptions { o with enableBackpressure := some true }) =
        min (o.limitPerReq.getD 5000) 500 ∧
      highWaterMark (fillAllEventsIterOptions { o with enableBackpressure := some true }) n =
        some (max (min (o.limitPerReq.getD 5000) 500 * n) 5000)) ∧
    (highWaterMark (fillAllEventsIterOptions { o with enableBackpressure := some false }) n =
        none ∧
      allEventsReqLimit (fillAllEventsIterOptions { o with enableBackpressure := some false }) =
        min (o.limitPerReq.getD 5000) 5000) := by
  refine ⟨⟨?_, rfl⟩, rfl, rfl⟩
  simp only [allEventsReqLimit, finalLimitPerReq, highWaterMark, fillAllEventsIterOptions,
    MAX_LIMIT_PER_REQ, MAX_LIMIT_PER_REQ_IN_BACKPRESSURE, MIN_HIGH_WATER_MARK,
    Option.getD_some, if_true]
  rw [min_assoc]
  norm_num

/-- C5: `fetchLastEvent` returns the first element of
`fetchLatestEvents(relays, filter, 1, opts')` (none when that list is
empty), where `opts'` agrees with the caller's options except that
`abortSubBeforeEoseTimeoutMs` defaults to 1000 ms instead of 10000 ms when
the caller did not set it. -/
theorem fetchLastEvent_delegates_c5 (verify : NostrEvent → Bool)
    (eligibleOf : List String → List String) (pagesOf : String → List PageResult)
    (relayUrls : List String) (initialUntil : Int) (o : FetchLatestOptions) :
    (∀ l, fetchLatestEvents verify eligibleOf pagesOf relayUrls initialUntil 1
        (lastEventOptions o) = .ok l →
      fetchLastEvent verify eligibleOf pagesOf relayUrls initialUntil o = .ok l.head?) ∧
    (∀ e, fetchLatestEvents verify eligibleOf pagesOf relayUrls initialUntil 1
        (lastEventOptions o) = .error e →
      fetchLastEvent verify eligibleOf pagesOf relayUrls initialUntil o = .error e) ∧
    (fillLatestOptions (lastEventOptions o)).abortSubBeforeEoseTimeoutMs =
      o.abortSubBeforeEoseTimeoutMs.getD 1000 ∧
    (fillLatestOptions o).abortSubBeforeEoseTimeoutMs =
      o.abortSubBeforeEoseTimeoutMs.getD 10000 ∧
    (∀ v, o.abortSubBeforeEoseTimeoutMs = some v → lastEventOptions o = o) ∧
    (o.abortSubBeforeEoseTimeoutMs = none →
      lastEventOptions o = { o with abortSubBeforeEoseTimeoutMs := some 1000 }) ∧
    (fillLatestOptions (lastEventOptions o)).skipVerification =
      (fillLatestOptions o).skipVerification ∧
    (fillLatestOptions (lastEventOptions o)).connectTimeoutMs =
      (fillLatestOptions o).connectTimeoutMs ∧
    (fillLatestOptions (lastEventOptions o)).limitPerReq =
      (fillLatestOptions o).limitPerReq ∧
    (fillLatestOptions (lastEventOptions o)).reduceVerification =
      (fillLatestOptions o).reduceVerification := by
  refine ⟨?_, ?_, ?_, rfl, ?_, ?_, rfl, rfl, rfl, rfl⟩
  · intro l hl
    simp [fetchLastEvent, hl]
  · intro e he
    simp [fetchLastEvent, he]
  · cases h : o.abortSubBeforeEoseTimeoutMs <;>
      simp [fillLatestOptions, lastEventOptions, h]
  · intro v hv
    cases o
    simp_all [lastEventOptions]
  · intro hv
    simp [lastEventOptions, hv]

theorem fetchLastEvent_delegates_c5_witness :
    lastEventOptions ⟨none, none, some 5, none, none⟩ =
      (⟨none, none, some 5, none, none⟩ : FetchLatestOptions) ∧
    lastEventOptions (⟨none, none, none, none, none⟩ : FetchLatestOptions) =
      ⟨none, none, some 1000, none, none⟩ ∧
    fetchLastEvent (fun _ => true) (fun _ => []) (fun _ => []) [] 0 {} = .ok none := by
  refine ⟨?_, ?_, ?_⟩
  · exact (fetchLastEvent_delegates_c5 (fun _ => true) (fun _ => []) (fun _ => []) [] 0
      ⟨none, none, some 5, none, none⟩).2.2.2.2.1 5 rfl
  · have h := (fetchLastEvent_delegates_c5 (fun _ => true) (fun _ => []) (fun _ => []) [] 0
      (⟨none, none, none, none, none⟩ : FetchLatestOptions)).2.2.2.2.2.1 rfl
    simpa using h
  · have hlat : fetchLatestEvents (fun _ => true) (fun _ => []) (fun _ => []) [] 0 1
        (lastEventOptions ({} : FetchLatestOptions)) = .ok [] := by
      simp [fetchLatestEvents, validateLatest, assertReq, latestCollect, latestPostProcess,
        sortEvents, fillLatestOptions, lastEventOptions, verifiedLoop]
    have h := (fetchLastEvent_delegates_c5 (fun _ => true) (fun _ => []) (fun _ => []) [] 0
      ({} : FetchLatestOptions)).1 [] hlat
    simpa using h

/-- C8: `EventBuckets` behaviour: `add(k, e)` is `dropped` for an unknown
key or a bucket already at the cap, `fulfilled` (carrying the bucket's
events) exactly on the insert that reaches the cap, and `open` otherwise;
`calcKeysAndLimitForNextReq` returns exactly the not-yet-fulfilled keys
with the sum of their remaining capacities.  The final conjunct replays the
concrete scenarios of `fetcherHelper.spec.ts`. -/
theorem eventBuckets_c8 :
    (∀ (b : EventBuckets) (k : String) (e : NostrEvent),
        b.buckets.lookup k = none →
        (b.add k e).1 = ⟨.dropped, none⟩ ∧ (b.add k e).2 = b) ∧
    (∀ (b : EventBuckets) (k : String) (e : NostrEvent) (evs : List NostrEvent),
        b.buckets.lookup k = some evs → (evs.length : Int) ≥ b.limitPerKey →
        (b.add k e).1 = ⟨.dropped, none⟩ ∧ (b.add k e).2 = b) ∧
    (∀ (b : EventBuckets) (k : String) (e : NostrEvent) (evs : List NostrEvent),
        b.buckets.lookup k = some evs → (evs.length : Int) + 1 = b.limitPerKey →
        (b.add k e).1 = ⟨.fulfilled, some (evs ++ [e])⟩) ∧
    (∀ (b : EventBuckets) (k : String) (e : NostrEvent) (evs : List NostrEvent),
        b.buckets.lookup k = some evs → (evs.length : Int) + 1 < b.limitPerKey →
        (b.add k e).1 = ⟨.opened, none⟩) ∧
    (∀ (b : EventBuckets), (b.buckets.map Prod.fst).Nodup →
      (∀ k, k ∈ b.calcKeysAndLimitForNextReq.1 ↔
          ∃ evs, b.getBucket k = some evs ∧ (evs.length : Int) < b.limitPerKey) ∧
      b.calcKeysAndLimitForNextReq.2 =
        (b.calcKeysAndLimitForNextReq.1.map
          (fun k => b.limitPerKey - ((b.getBucket k).getD []).length)).sum) ∧
    (let e1 : NostrEvent := ⟨"1", "", 0, 0, [], "", ""⟩
     let e2 : NostrEvent := ⟨"2", "", 0, 0, [], "", ""⟩
     let b0 := EventBuckets.make ["alice", "bob"] 2
     let r1 := b0.add "alice" e1
     let r2 := r1.2.add "alice" e2
     let r3 := r2.2.add "alice" e1
     let r4 := r2.2.add "bob" e1
     let r5 := r4.2.add "bob" e2
     r1.1.state = .opened ∧
     r2.1 = ⟨.fulfilled, some [e1, e2]⟩ ∧
     r3.1.state = .dropped ∧
     r4.1.state = .opened ∧
     r5.1 = ⟨.fulfilled, some [e1, e2]⟩ ∧
     (r5.2.add "unknown" e1).1.state = .dropped ∧
     b0.getBucket "alice" = some [] ∧
     b0.getBucket "bob" = some [] ∧
     b0.getBucket "unknown" = none ∧
     b0.calcKeysAndLimitForNextReq = (["alice", "bob"], 4) ∧
     r1.2.calcKeysAndLimitForNextReq = (["alice", "bob"], 3) ∧
     r2.2.calcKeysAndLimitForNextReq = (["bob"], 2) ∧
     r4.2.calcKeysAndLimitForNextReq = (["bob"], 1) ∧
     r5.2.calcKeysAndLimitForNextReq = ([], 0)) := by
  refine ⟨?_, ?_, ?_, ?_, ?_, ?_⟩
  · intro b k e h
    simp [EventBuckets.add, h]
  · intro b k e evs h hge
    have hlt : ¬((evs.length : Int) < b.limitPerKey) := by omega
    simp [EventBuckets.add, h, hlt]
  · intro b k e evs h heq
    have hlt : (evs.length : Int) < b.limitPerKey := by omega
    simp [EventBuckets.add, h, hlt, heq]
  · intro b k e evs h hlt1
    have hlt : (evs.length : Int) < b.limitPerKey := by omega
    have hlen : ¬((evs.length : Int) + 1 = b.limitPerKey) := by omega
    simp [EventBuckets.add, h, hlt, hlen]
  · intro b nd
    constructor
    · intro k
      have h := mem_filter_map_fst_iff (fun p => decide ((p.2.length : Int) < b.limitPerKey)) nd k
      simpa [EventBuckets.calcKeysAndLimitForNextReq, EventBuckets.getBucket] using h
    · simp only [EventBuckets.calcKeysAndLimitForNextReq, List.map_map]
      congr 1
      apply List.map_congr_left
      intro p hp
      have hmem : p ∈ b.buckets := (List.mem_filter.mp hp).1
      have hl : b.buckets.lookup p.1 = some p.2 :=
        lookup_eq_some_of_mem_of_nodupKeys nd (by exact hmem)
      simp [Function.comp, EventBuckets.getBucket, hl]
  · refine ⟨rfl, by decide, by decide, by decide, by decide, by decide, rfl, rfl, rfl,
      by decide, by decide, by decide, by decide, by decide⟩

theorem eventBuckets_c8_witness :
    ((EventBuckets.make ["a"] 1).add "zzz" ⟨"1", "", 0, 0, [], "", ""⟩).1 =
      ⟨.dropped, none⟩ ∧
    ((EventBuckets.make ["a"] 1).add "a" ⟨"1", "", 0, 0, [], "", ""⟩).1 =
      ⟨.fulfilled, some [⟨"1", "", 0, 0, [], "", ""⟩]⟩ ∧
    ((EventBuckets.make ["a"] 2).add "a" ⟨"1", "", 0, 0, [], "", ""⟩).1 =
      ⟨.opened, none⟩ ∧
    ("a" ∈ (EventBuckets.make ["a"] 2).calcKeysAndLimitForNextReq.1 ↔
      ∃ evs, (EventBuckets.make ["a"] 2).getBucket "a" = some evs ∧
        (evs.length : Int) < 2) := by
  refine ⟨?_, ?_, ?_, ?_⟩
  · exact (eventBuckets_c8.1 (EventBuckets.make ["a"] 1) "zzz" ⟨"1", "", 0, 0, [], "", ""⟩
      (by decide)).1
  · exact eventBuckets_c8.2.2.1 (EventBuckets.make ["a"] 1) "a" ⟨"1", "", 0, 0, [], "", ""⟩
      [] (by decide) (by decide)
  · exact eventBuckets_c8.2.2.2.1 (EventBuckets.make ["a"] 2) "a" ⟨"1", "", 0, 0, [], "", ""⟩
      [] (by decide) (by decide)
  · exact ((eventBuckets_c8.2.2.2.2.1 (EventBuckets.make ["a"] 2) (by decide)).1 "a")

/-- C6: Input validation runs before any I/O: `allEventsIterator` and
`fetchAllEvents` fail with a typed `NostrFetchError` whenever
`since > until`, and `fetchLatestEvents` / `fetchLatestEventsPerAuthor`
whenever `limit` is not positive — in each case for every environment, so
no relay interaction can occur first.  An empty relay list (or empty
authors list) does not raise: the call completes with an empty result.
`hSub` is the `ensureRelays` contract (connected relays are a subset of the
requested ones). -/
theorem validation_before_io_c6 (verify : NostrEvent → Bool)
    (eligibleOf : List String → List String) (pagesOf : String → List PageResult)
    (normalizeUrl : String → String)
    (hSub : ∀ urls, eligibleOf urls ⊆ urls) :
    (∀ relayUrls s u now, s > u →
      allEventsIterator eligibleOf pagesOf relayUrls (some s) (some u) now =
        .error ⟨"Invalid time range (since > until)"⟩) ∧
    (∀ relayUrls s u now sort, s > u →
      fetchAllEvents eligibleOf pagesOf relayUrls (some s) (some u) now sort =
        .error ⟨"Invalid time range (since > until)"⟩) ∧
    (∀ relayUrls initialUntil limit opts, limit ≤ 0 →
      fetchLatestEvents verify eligibleOf pagesOf relayUrls initialUntil limit opts =
        .error ⟨"\"limit\" should be positive number"⟩) ∧
    (∀ a2rs initialUntil limit opts, limit ≤ 0 →
      fetchLatestEventsPerAuthor verify eligibleOf normalizeUrl pagesOf a2rs
          initialUntil limit opts =
        .error ⟨"\"limit\" should be positive number"⟩) ∧
    (∀ s? u? now, timeRangeValid s? u? = true →
      allEventsIterator eligibleOf pagesOf [] s? u? now = .ok []) ∧
    (∀ s? u? now sort, timeRangeValid s? u? = true →
      fetchAllEvents eligibleOf pagesOf [] s? u? now sort = .ok []) ∧
    (∀ initialUntil limit opts, 0 < limit →
      fetchLatestEvents verify eligibleOf pagesOf [] initialUntil limit opts = .ok []) ∧
    (∀ relayUrls initialUntil limit opts, 0 < limit →
      fetchLatestEventsPerAuthor verify eligibleOf normalizeUrl pagesOf
          (.forAllAuthors [] relayUrls) initialUntil limit opts = .ok []) := by
  have hnil : eligibleOf [] = [] := List.subset_nil.mp (hSub [])
  refine ⟨?_, ?_, ?_, ?_, ?_, ?_, ?_, ?_⟩
  · intro relayUrls s u now hsu
    have hinv : timeRangeValid (some s) (some u) = false := by
      simp [timeRangeValid]
      omega
    simp [allEventsIterator, validateAllEvents, assertReq, hinv]
  · intro relayUrls s u now sort hsu
    have hinv : timeRangeValid (some s) (some u) = false := by
      simp [timeRangeValid]
      omega
    simp [fetchAllEvents, allEventsIterator, validateAllEvents, assertReq, hinv]
  · intro relayUrls initialUntil limit opts hlim
    have hinv : ¬(limit > 0) := by omega
    simp [fetchLatestEvents, validateLatest, assertReq, hinv]
  · intro a2rs initialUntil limit opts hlim
    have hinv : ¬(limit > 0) := by omega
    simp [fetchLatestEventsPerAuthor, validatePerAuthor, assertReq, hinv]
  · intro s? u? now hval
    simp [allEventsIterator, validateAllEvents, assertReq, hval, allEventsCollect, hnil]
  · intro s? u? now sort hval
    simp [fetchAllEvents, allEventsIterator, validateAllEvents, assertReq, hval,
      allEventsCollect, hnil, sortEvents]
  · intro initialUntil limit opts hlim
    simp [fetchLatestEvents, validateLatest, assertReq, hlim, latestCollect, hnil,
      latestPostProcess, sortEvents, verifiedLoop]
  · intro relayUrls initialUntil limit opts hlim
    simp [fetchLatestEventsPerAuthor, validatePerAuthor, assertReq, hlim,
      mapAvailableRelayToAuthors]

theorem validation_before_io_c6_witness :
    allEventsIterator (fun urls => urls) (fun _ => []) ["r"] (some 10) (some 5) 0 =
      .error ⟨"Invalid time range (since > until)"⟩ ∧
    fetchLatestEvents (fun _ => true) (fun urls => urls) (fun _ => []) ["r"] 0 0 {} =
      .error ⟨"\"limit\" should be positive number"⟩ ∧
    allEventsIterator (fun urls => urls) (fun _ => []) [] none none 0 = .ok [] ∧
    fetchLatestEvents (fun _ => true) (fun urls => urls) (fun _ => []) [] 0 1 {} = .ok [] := by
  have h := validation_before_io_c6 (fun _ => true) (fun urls => urls) (fun _ => [])
    (fun u => u) (fun _ => List.Subset.refl _)
  exact ⟨h.1 ["r"] 10 5 0 (by norm_num), h.2.2.1 ["r"] 0 0 {} (by norm_num),
    h.2.2.2.2.1 none none 0 (by rfl), h.2.2.2.2.2.2.1 0 1 {} (by norm_num)⟩

theorem allEventsHandleEvent_gotNew_oldest (st : AllIterScan) (e : NostrEvent) :
    (allEventsHandleEvent st e).gotNewEvent = (if st.localSeen.contains e.id then st.gotNewEvent else true) ∧
    (allEventsHandleEvent st e).oldestCreatedAt =
      (if st.localSeen.contains e.id then st.oldestCreatedAt
       else if e.created_at < st.oldestCreatedAt then e.created_at else st.oldestCreatedAt) := by
  unfold allEventsHandleEvent
  split
  · simp
  · split <;> simp [apply_ite]

theorem allEventsScan_oldest_lt (u : Int) (evs : List NostrEvent) :
    ∀ (st : AllIterScan),
      (∀ e ∈ evs, e.created_at < u) →
      (st.gotNewEvent = true → st.oldestCreatedAt < u) →
      (evs.foldl allEventsHandleEvent st).gotNewEvent = true →
      (evs.foldl allEventsHandleEvent st).oldestCreatedAt < u := by
  induction evs with
  | nil => intro st _ hst h; exact hst h
  | cons e rest ih =>
    intro st hlt hst
    simp only [List.foldl_cons]
    refine ih (allEventsHandleEvent st e) (fun x hx => hlt x (List.mem_cons_of_mem _ hx)) ?_
    intro hnew
    have he : e.created_at < u := hlt e (List.mem_cons_self e rest)
    obtain ⟨hg, ho⟩ := allEventsHandleEvent_gotNew_oldest st e
    rw [ho]
    rw [hg] at hnew
    by_cases hc : st.localSeen.contains e.id
    · rw [if_pos hc] at hnew ⊢
      exact hst hnew
    · rw [if_neg hc]
      split <;> omega

theorem allEventsLoop_reqTrace_mono (pages : List PageResult) :
    ∀ (st : AllIterLoopState) (p : Int × List NostrEvent), p ∈ st.reqTrace →
      p ∈ (allEventsLoop pages st).reqTrace := by
  induction pages with
  | nil => intro st p hp; exact hp
  | cons pr rest ih =>
    intro st p hp
    unfold allEventsLoop
    cases houtcome : pr.outcome with
    | errored => simpa using Or.inl hp
    | eose =>
      dsimp only
      split
      · simpa using Or.inl hp
      · split
        · simpa using Or.inl hp
        · exact ih _ p (by simpa using Or.inl hp)

theorem allEventsLoop_chain (pages : List PageResult) :
    ∀ (st : AllIterLoopState),
      (∀ p ∈ (allEventsLoop pages st).reqTrace, ∀ e ∈ p.2, e.created_at < p.1) →
      st.untilTrace.getLast? = some st.nextUntil →
      List.Chain' (fun a b => b ≤ a) st.untilTrace →
      List.Chain' (fun a b => b ≤ a) (allEventsLoop pages st).untilTrace := by
  induction pages with
  | nil => intro st _ _ hch; exact hch
  | cons pr rest ih =>
    intro st hcompl hlast hch
    unfold allEventsLoop at hcompl ⊢
    cases houtcome : pr.outcome with
    | errored =>
      rw [houtcome] at hcompl
      exact hch
    | eose =>
      rw [houtcome] at hcompl
      dsimp only at hcompl ⊢
      by_cases hnew : (!(pr.events.foldl allEventsHandleEvent
          ⟨st.localSeen, st.globalSeen, st.sent, false, maxSafeInteger⟩).gotNewEvent) = true
      · rw [if_pos hnew] at hcompl
        rw [if_pos hnew]
        exact hch
      · rw [if_neg hnew] at hcompl
        rw [if_neg hnew]
        by_cases habort : pr.abortedAfter = true
        · rw [if_pos habort] at hcompl
          rw [if_pos habort]
          exact hch
        · rw [if_neg habort] at hcompl
          rw [if_neg habort]
          have hentry : (st.nextUntil, pr.events) ∈
              (allEventsLoop rest
                { st with
                  localSeen := (pr.events.foldl allEventsHandleEvent
                    ⟨st.localSeen, st.globalSeen, st.sent, false, maxSafeInteger⟩).localSeen
                  globalSeen := (pr.events.foldl allEventsHandleEvent
                    ⟨st.localSeen, st.globalSeen, st.sent, false, maxSafeInteger⟩).globalSeen
                  sent := (pr.events.foldl allEventsHandleEvent
                    ⟨st.localSeen, st.globalSeen, st.sent, false, maxSafeInteger⟩).sent
                  reqTrace := st.reqTrace ++ [(st.nextUntil, pr.events)]
                  nextUntil := (pr.events.foldl allEventsHandleEvent
                    ⟨st.localSeen, st.globalSeen, st.sent, false, maxSafeInteger⟩).oldestCreatedAt + 1
                  untilTrace := st.untilTrace ++ [(pr.events.foldl allEventsHandleEvent
                    ⟨st.localSeen, st.globalSeen, st.sent, false, maxSafeInteger⟩).oldestCreatedAt + 1] }).reqTrace := by
            apply allEventsLoop_reqTrace_mono
            simp
          have hpage : ∀ e ∈ pr.events, e.created_at < st.nextUntil := hcompl _ hentry
          have hgot : (pr.events.foldl allEventsHandleEvent
              ⟨st.localSeen, st.globalSeen, st.sent, false, maxSafeInteger⟩).gotNewEvent = true := by
            revert hnew
            cases h : (pr.events.foldl allEventsHandleEvent
              ⟨st.localSeen, st.globalSeen, st.sent, false, maxSafeInteger⟩).gotNewEvent <;> simp
          have holdest : (pr.events.foldl allEventsHandleEvent
              ⟨st.localSeen, st.globalSeen, st.sent, false, maxSafeInteger⟩).oldestCreatedAt
                < st.nextUntil :=
            allEventsScan_oldest_lt st.nextUntil pr.events _ hpage (by intro h; cases h) hgot
          refine ih _ hcompl ?_ ?_
          · simp
          · rw [List.chain'_append]
            refine ⟨hch, List.chain'_singleton _, ?_⟩
            intro x hx y hy
            rw [hlast] at hx
            simp only [Option.mem_def, Option.some.injEq] at hx
            simp only [List.head?_cons, Option.mem_def, Option.some.injEq] at hy
            omega

theorem latestHandleEvent_numNew_oldest (st : LatestScan) (e : NostrEvent) :
    (latestHandleEvent st e).numNewEvents =
      (if st.localSeen.contains e.id then st.numNewEvents else st.numNewEvents + 1) ∧
    (latestHandleEvent st e).oldestCreatedAt =
      (if st.localSeen.contains e.id then st.oldestCreatedAt
       else if e.created_at < st.oldestCreatedAt then e.created_at else st.oldestCreatedAt) := by
  unfold latestHandleEvent
  split
  · simp
  · split <;> simp [apply_ite]

theorem latestScan_oldest_lt (u : Int) (evs : List NostrEvent) :
    ∀ (st : LatestScan),
      (∀ e ∈ evs, e.created_at < u) →
      (st.numNewEvents ≠ 0 → st.oldestCreatedAt < u) →
      (evs.foldl latestHandleEvent st).numNewEvents ≠ 0 →
      (evs.foldl latestHandleEvent st).oldestCreatedAt < u := by
  induction evs with
  | nil => intro st _ hst h; exact hst h
  | cons e rest ih =>
    intro st hlt hst
    simp only [List.foldl_cons]
    refine ih (latestHandleEvent st e) (fun x hx => hlt x (List.mem_cons_of_mem _ hx)) ?_
    intro hnew
    have he : e.created_at < u := hlt e (List.mem_cons_self e rest)
    obtain ⟨hg, ho⟩ := latestHandleEvent_numNew_oldest st e
    rw [ho]
    rw [hg] at hnew
    by_cases hc : st.localSeen.contains e.id
    · rw [if_pos hc] at hnew ⊢
      exact hst hnew
    · rw [if_neg hc]
      split <;> omega

theorem latestLoop_reqTrace_mono (pages : List PageResult) :
    ∀ (st : LatestLoopState) (p : Int × List NostrEvent), p ∈ st.reqTrace →
      p ∈ (latestLoop pages st).reqTrace := by
  induction pages with
  | nil => intro st p hp; exact hp
  | cons pr rest ih =>
    intro st p hp
    unfold latestLoop
    cases houtcome : pr.outcome with
    | errored => simpa using Or.inl hp
    | eose =>
      dsimp only
      split
      · simpa using Or.inl hp
      · split
        · simpa using Or.inl hp
        · exact ih _ p (by simpa using Or.inl hp)

theorem latestLoop_chain (pages : List PageResult) :
    ∀ (st : LatestLoopState),
      (∀ p ∈ (latestLoop pages st).reqTrace, ∀ e ∈ p.2, e.created_at < p.1) →
      st.untilTrace.getLast? = some st.nextUntil →
      List.Chain' (fun a b => b ≤ a) st.untilTrace →
      List.Chain' (fun a b => b ≤ a) (latestLoop pages st).untilTrace := by
  induction pages with
  | nil => intro st _ _ hch; exact hch
  | cons pr rest ih =>
    intro st hcompl hlast hch
    unfold latestLoop at hcompl ⊢
    cases houtcome : pr.outcome with
    | errored =>
      rw [houtcome] at hcompl
      exact hch
    | eose =>
      rw [houtcome] at hcompl
      dsimp only at hcompl ⊢
      by_cases hbreak : ((pr.events.foldl latestHandleEvent
          ⟨st.localSeen, st.globalSeen, st.sent, 0, maxSafeInteger⟩).numNewEvents = 0 ||
          st.remainingLimit - (pr.events.foldl latestHandleEvent
            ⟨st.localSeen, st.globalSeen, st.sent, 0, maxSafeInteger⟩).numNewEvents ≤ 0) = true
      · rw [if_pos hbreak] at hcompl
        rw [if_pos hbreak]
        exact hch
      · rw [if_neg hbreak] at hcompl
        rw [if_neg hbreak]
        by_cases habort : pr.abortedAfter = true
        · rw [if_pos habort] at hcompl
          rw [if_pos habort]
          exact hch
        · rw [if_neg habort] at hcompl
          rw [if_neg habort]
          have hentry : (st.nextUntil, pr.events) ∈
              (latestLoop rest
                { st with
                  localSeen := (pr.events.foldl latestHandleEvent
                    ⟨st.localSeen, st.globalSeen, st.sent, 0, maxSafeInteger⟩).localSeen
                  globalSeen := (pr.events.foldl latestHandleEvent
                    ⟨st.localSeen, st.globalSeen, st.sent, 0, maxSafeInteger⟩).globalSeen
                  sent := (pr.events.foldl latestHandleEvent
                    ⟨st.localSeen, st.globalSeen, st.sent, 0, maxSafeInteger⟩).sent
                  reqTrace := st.reqTrace ++ [(st.nextUntil, pr.events)]
                  remainingLimit := st.remainingLimit - (pr.events.foldl latestHandleEvent
                    ⟨st.localSeen, st.globalSeen, st.sent, 0, maxSafeInteger⟩).numNewEvents
                  nextUntil := (pr.events.foldl latestHandleEvent
                    ⟨st.localSeen, st.globalSeen, st.sent, 0, maxSafeInteger⟩).oldestCreatedAt + 1
                  untilTrace := st.untilTrace ++ [(pr.events.foldl latestHandleEvent
                    ⟨st.localSeen, st.globalSeen, st.sent, 0, maxSafeInteger⟩).oldestCreatedAt + 1] }).reqTrace := by
            apply latestLoop_reqTrace_mono
            simp
          have hpage : ∀ e ∈ pr.events, e.created_at < st.nextUntil := hcompl _ hentry
          have hgot : (pr.events.foldl latestHandleEvent
              ⟨st.localSeen, st.globalSeen, st.sent, 0, maxSafeInteger⟩).numNewEvents ≠ 0 := by
            intro h0
            apply hbreak
            simp [h0]
          have holdest : (pr.events.foldl latestHandleEvent
              ⟨st.localSeen, st.globalSeen, st.sent, 0, maxSafeInteger⟩).oldestCreatedAt
                < st.nextUntil :=
            latestScan_oldest_lt st.nextUntil pr.events _ hpage (by intro h; simp at h) hgot
          refine ih _ hcompl ?_ ?_
          · simp
          · rw [List.chain'_append]
            refine ⟨hch, List.chain'_singleton _, ?_⟩
            intro x hx y hy
            rw [hlast] at hx
            simp only [Option.mem_def, Option.some.injEq] at hx
            simp only [List.head?_cons, Option.mem_def, Option.some.injEq] at hy
            omega

theorem perAuthorHandleEvent_gotNew_oldest (st : PerAuthorScan) (e : NostrEvent) :
    (perAuthorHandleEvent st e).gotNewEvent =
      (if st.localSeen.contains e.id then st.gotNewEvent else true) ∧
    (perAuthorHandleEvent st e).oldestCreatedAt =
      (if st.localSeen.contains e.id then st.oldestCreatedAt
       else if e.created_at < st.oldestCreatedAt then e.created_at else st.oldestCreatedAt) := by
  unfold perAuthorHandleEvent
  split
  · simp
  · simp

theorem perAuthorScan_oldest_lt (u : Int) (evs : List NostrEvent) :
    ∀ (st : PerAuthorScan),
      (∀ e ∈ evs, e.created_at < u) →
      (st.gotNewEvent = true → st.oldestCreatedAt < u) →
      (evs.foldl perAuthorHandleEvent st).gotNewEvent = true →
      (evs.foldl perAuthorHandleEvent st).oldestCreatedAt < u := by
  induction evs with
  | nil => intro st _ hst h; exact hst h
  | cons e rest ih =>
    intro st hlt hst
    simp only [List.foldl_cons]
    refine ih (perAuthorHandleEvent st e) (fun x hx => hlt x (List.mem_cons_of_mem _ hx)) ?_
    intro hnew
    have he : e.created_at < u := hlt e (List.mem_cons_self e rest)
    obtain ⟨hg, ho⟩ := perAuthorHandleEvent_gotNew_oldest st e
    rw [ho]
    rw [hg] at hnew
    by_cases hc : st.localSeen.contains e.id
    · rw [if_pos hc] at hnew ⊢
      exact hst hnew
    · rw [if_neg hc]
      split <;> omega

theorem perAuthorLoop_reqTrace_mono (authors : List String) (pages : List PageResult) :
    ∀ (st : PerAuthorLoopState) (p : Int × List NostrEvent), p ∈ st.reqTrace →
      p ∈ (perAuthorLoop authors pages st).reqTrace := by
  induction pages with
  | nil =>
    intro st p hp
    unfold perAuthorLoop
    split <;> simpa using hp
  | cons pr rest ih =>
    intro st p hp
    unfold perAuthorLoop
    split
    · exact hp
    · cases houtcome : pr.outcome with
      | errored => simpa using Or.inl hp
      | eose =>
        dsimp only
        split
        · simpa using Or.inl hp
        · split
          · simpa using Or.inl hp
          · exact ih _ p (by simpa using Or.inl hp)

theorem perAuthorLoop_chain (authors : List String) (pages : List PageResult) :
    ∀ (st : PerAuthorLoopState),
      (∀ p ∈ (perAuthorLoop authors pages st).reqTrace, ∀ e ∈ p.2, e.created_at < p.1) →
      st.untilTrace.getLast? = some st.nextUntil →
      List.Chain' (fun a b => b ≤ a) st.untilTrace →
      List.Chain' (fun a b => b ≤ a) (perAuthorLoop authors pages st).untilTrace := by
  induction pages with
  | nil =>
    intro st _ _ hch
    unfold perAuthorLoop
    split
    · exact hch
    · exact hch
  | cons pr rest ih =>
    intro st hcompl hlast hch
    unfold perAuthorLoop at hcompl ⊢
    by_cases hkeys : st.buckets.calcKeysAndLimitForNextReq.1.isEmpty = true
    · rw [if_pos hkeys] at hcompl
      rw [if_pos hkeys]
      exact hch
    · rw [if_neg hkeys] at hcompl
      rw [if_neg hkeys]
      cases houtcome : pr.outcome with
      | errored =>
        rw [houtcome] at hcompl
        exact hch
      | eose =>
        rw [houtcome] at hcompl
        dsimp only at hcompl ⊢
        by_cases hnew : (!(pr.events.foldl perAuthorHandleEvent
            ⟨st.localSeen, st.buckets, st.resolved, false, maxSafeInteger⟩).gotNewEvent) = true
        · rw [if_pos hnew] at hcompl
          rw [if_pos hnew]
          exact hch
        · rw [if_neg hnew] at hcompl
          rw [if_neg hnew]
          by_cases habort : pr.abortedAfter = true
          · rw [if_pos habort] at hcompl
            rw [if_pos habort]
            exact hch
          · rw [if_neg habort] at hcompl
            rw [if_neg habort]
            have hentry : (st.nextUntil, pr.events) ∈
                (perAuthorLoop authors rest
                  { st with
                    localSeen := (pr.events.foldl perAuthorHandleEvent
                      ⟨st.localSeen, st.buckets, st.resolved, false, maxSafeInteger⟩).localSeen
                    buckets := (pr.events.foldl perAuthorHandleEvent
                      ⟨st.localSeen, st.buckets, st.resolved, false, maxSafeInteger⟩).buckets
                    resolved := (pr.events.foldl perAuthorHandleEvent
                      ⟨st.localSeen, st.buckets, st.resolved, false, maxSafeInteger⟩).resolved
                    reqTrace := st.reqTrace ++ [(st.nextUntil, pr.events)]
                    nextUntil := (pr.events.foldl perAuthorHandleEvent
                      ⟨st.localSeen, st.buckets, st.resolved, false, maxSafeInteger⟩).oldestCreatedAt + 1
                    untilTrace := st.untilTrace ++ [(pr.events.foldl perAuthorHandleEvent
                      ⟨st.localSeen, st.buckets, st.resolved, false, maxSafeInteger⟩).oldestCreatedAt + 1] }).reqTrace := by
              apply perAuthorLoop_reqTrace_mono
              simp
            have hpage : ∀ e ∈ pr.events, e.created_at < st.nextUntil := hcompl _ hentry
            have hgot : (pr.events.foldl perAuthorHandleEvent
                ⟨st.localSeen, st.buckets, st.resolved, false, maxSafeInteger⟩).gotNewEvent = true := by
              revert hnew
              cases h : (pr.events.foldl perAuthorHandleEvent
                ⟨st.localSeen, st.buckets, st.resolved, false, maxSafeInteger⟩).gotNewEvent <;> simp
            have holdest : (pr.events.foldl perAuthorHandleEvent
                ⟨st.localSeen, st.buckets, st.resolved, false, maxSafeInteger⟩).oldestCreatedAt
                  < st.nextUntil :=
              perAuthorScan_oldest_lt st.nextUntil pr.events _ hpage (by intro h; cases h) hgot
            refine ih _ hcompl ?_ ?_
            · simp
            · rw [List.chain'_append]
              refine ⟨hch, List.chain'_singleton _, ?_⟩
              intro x hx y hy
              rw [hlast] at hx
              simp only [Option.mem_def, Option.some.injEq] at hx
              simp only [List.head?_cons, Option.mem_def, Option.some.injEq] at hy
              omega

/-- C2 is false as stated: in the `allEventsIterator` pagination loop, an
iteration whose single delivered event has `created_at` equal to the
requested `until` (legal for a relay honoring `until` inclusively) sends
`nextUntil` from 100 up to 101, so the sequence is not non-increasing; and
an iteration that receives one locally-new event with `created_at = 99`
under `until = 100` leaves `nextUntil` at 100, so iterations with new
events are not strictly decreasing either. -/
theorem nextUntil_monotone_c2_counterexample :
    (allEventsRunRelay [⟨[⟨"a", "p", 100, 1, [], "", ""⟩], .eose, false⟩] 100 [] []).untilTrace =
      [100, 101] ∧
    ¬ List.Chain' (fun a b : Int => b ≤ a)
      (allEventsRunRelay [⟨[⟨"a", "p", 100, 1, [], "", ""⟩], .eose, false⟩] 100 [] []).untilTrace ∧
    (allEventsRunRelay [⟨[⟨"b", "p", 99, 1, [], "", ""⟩], .eose, false⟩] 100 [] []).untilTrace =
      [100, 100] := by
  have h1 : (allEventsRunRelay [⟨[⟨"a", "p", 100, 1, [], "", ""⟩], .eose, false⟩] 100
      [] []).untilTrace = [100, 101] := by decide
  have h2 : (allEventsRunRelay [⟨[⟨"b", "p", 99, 1, [], "", ""⟩], .eose, false⟩] 100
      [] []).untilTrace = [100, 100] := by decide
  refine ⟨h1, ?_, h2⟩
  rw [h1]
  simp only [List.chain'_cons, List.chain'_singleton, and_true]
  omega

/-- C2 (amended): in every relay worker's pagination loop
(`allEventsIterator`, `fetchLatestEvents`, `fetchLatestEventsPerAuthor`),
the `nextUntil` sequence is monotonically non-increasing over the whole
fetch provided every event the relay delivers in an iteration has
`created_at` strictly below the `until` requested in that iteration; the
update after an iteration that receives a locally-new event sets
`nextUntil` to (oldest locally-new `created_at`) + 1, so without that
proviso `nextUntil` can grow, and strict decrease is not guaranteed. -/
theorem nextUntil_nonincreasing_c2_amended :
    (∀ (pages : List PageResult) (initialUntil : Int) (gs : List String)
        (sent : List NostrEvent),
      (∀ p ∈ (allEventsRunRelay pages initialUntil gs sent).reqTrace,
        ∀ e ∈ p.2, e.created_at < p.1) →
      List.Chain' (fun a b : Int => b ≤ a)
        (allEventsRunRelay pages initialUntil gs sent).untilTrace) ∧
    (∀ (pages : List PageResult) (initialUntil limit : Int) (gs : List String)
        (sent : List NostrEvent),
      (∀ p ∈ (latestRunRelay pages initialUntil limit gs sent).reqTrace,
        ∀ e ∈ p.2, e.created_at < p.1) →
      List.Chain' (fun a b : Int => b ≤ a)
        (latestRunRelay pages initialUntil limit gs sent).untilTrace) ∧
    (∀ (authors : List String) (pages : List PageResult) (initialUntil limit : Int),
      (∀ p ∈ (perAuthorLoop authors pages
          ⟨initialUntil, [], EventBuckets.make authors limit, [], [initialUntil], []⟩).reqTrace,
        ∀ e ∈ p.2, e.created_at < p.1) →
      List.Chain' (fun a b : Int => b ≤ a)
        (perAuthorLoop authors pages
          ⟨initialUntil, [], EventBuckets.make authors limit, [], [initialUntil], []⟩).untilTrace) := by
  refine ⟨?_, ?_, ?_⟩
  · intro pages initialUntil gs sent hcompl
    exact allEventsLoop_chain pages _ hcompl (by simp) (List.chain'_singleton _)
  · intro pages initialUntil limit gs sent hcompl
    exact latestLoop_chain pages _ hcompl (by simp) (List.chain'_singleton _)
  · intro authors pages initialUntil limit hcompl
    exact perAuthorLoop_chain authors pages _ hcompl (by simp) (List.chain'_singleton _)

theorem nextUntil_nonincreasing_c2_amended_witness :
    List.Chain' (fun a b : Int => b ≤ a)
      (allEventsRunRelay [⟨[⟨"x", "p", 50, 1, [], "", ""⟩], .eose, false⟩] 100 [] []).untilTrace ∧
    List.Chain' (fun a b : Int => b ≤ a)
      (latestRunRelay [⟨[⟨"x", "p", 50, 1, [], "", ""⟩], .eose, false⟩] 100 7 [] []).untilTrace ∧
    List.Chain' (fun a b : Int => b ≤ a)
      (perAuthorLoop ["p"] [⟨[⟨"x", "p", 50, 1, [], "", ""⟩], .eose, false⟩]
        ⟨100, [], EventBuckets.make ["p"] 7, [], [100], []⟩).untilTrace := by
  refine ⟨?_, ?_, ?_⟩
  · exact nextUntil_nonincreasing_c2_amended.1
      [⟨[⟨"x", "p", 50, 1, [], "", ""⟩], .eose, false⟩] 100 [] [] (by decide)
  · exact nextUntil_nonincreasing_c2_amended.2.1
      [⟨[⟨"x", "p", 50, 1, [], "", ""⟩], .eose, false⟩] 100 7 [] [] (by decide)
  · exact nextUntil_nonincreasing_c2_amended.2.2
      ["p"] [⟨[⟨"x", "p", 50, 1, [], "", ""⟩], .eose, false⟩] 100 7 (by decide)

theorem sentInv_append {gs : List String} {sent : List NostrEvent} {e : NostrEvent}
    (h1 : (sent.map (fun x => x.id)).Nodup) (h2 : ∀ x ∈ sent, x.id ∈ gs)
    (hg : e.id ∉ gs) :
    ((sent ++ [e]).map (fun x => x.id)).Nodup ∧
      ∀ x ∈ sent ++ [e], x.id ∈ gs ++ [e.id] := by
  constructor
  · rw [List.map_append, List.nodup_append]
    refine ⟨h1, by simp, ?_⟩
    intro a ha hb
    simp only [List.map_cons, List.map_nil, List.mem_singleton] at hb
    subst hb
    obtain ⟨x, hx, hxe⟩ := List.mem_map.mp ha
    exact hg (hxe ▸ h2 x hx)
  · intro x hx
    rcases List.mem_append.mp hx with h | h
    · exact List.mem_append.mpr (Or.inl (h2 x h))
    · simp only [List.mem_singleton] at h
      subst h
      simp

theorem allEventsHandleEvent_inv (st : AllIterScan) (e : NostrEvent)
    (h1 : (st.sent.map (fun x => x.id)).Nodup)
    (h2 : ∀ x ∈ st.sent, x.id ∈ st.globalSeen) :
    ((allEventsHandleEvent st e).sent.map (fun x => x.id)).Nodup ∧
      ∀ x ∈ (allEventsHandleEvent st e).sent,
        x.id ∈ (allEventsHandleEvent st e).globalSeen := by
  unfold allEventsHandleEvent
  split
  · exact ⟨h1, h2⟩
  · split
    · dsimp only
      split
      · exact ⟨h1, h2⟩
      · next hg =>
        have hgnot : e.id ∉ st.globalSeen := by simpa using hg
        exact sentInv_append h1 h2 hgnot
    · dsimp only
      split
      · exact ⟨h1, h2⟩
      · next hg =>
        have hgnot : e.id ∉ st.globalSeen := by simpa using hg
        exact sentInv_append h1 h2 hgnot

theorem allEventsScan_fold_inv (evs : List NostrEvent) :
    ∀ (st : AllIterScan), (st.sent.map (fun x => x.id)).Nodup →
      (∀ x ∈ st.sent, x.id ∈ st.globalSeen) →
      ((evs.foldl allEventsHandleEvent st).sent.map (fun x => x.id)).Nodup ∧
        ∀ x ∈ (evs.foldl allEventsHandleEvent st).sent,
          x.id ∈ (evs.foldl allEventsHandleEvent st).globalSeen := by
  induction evs with
  | nil => intro st h1 h2; exact ⟨h1, h2⟩
  | cons e rest ih =>
    intro st h1 h2
    simp only [List.foldl_cons]
    obtain ⟨h1', h2'⟩ := allEventsHandleEvent_inv st e h1 h2
    exact ih _ h1' h2'

theorem allEventsLoop_inv (pages : List PageResult) :
    ∀ (st : AllIterLoopState), (st.sent.map (fun x => x.id)).Nodup →
      (∀ x ∈ st.sent, x.id ∈ st.globalSeen) →
      (((allEventsLoop pages st).sent.map (fun x => x.id)).Nodup ∧
        ∀ x ∈ (allEventsLoop pages st).sent,
          x.id ∈ (allEventsLoop pages st).globalSeen) := by
  induction pages with
  | nil => intro st h1 h2; exact ⟨h1, h2⟩
  | cons pr rest ih =>
    intro st h1 h2
    unfold allEventsLoop
    obtain ⟨h1', h2'⟩ := allEventsScan_fold_inv pr.events
      ⟨st.localSeen, st.globalSeen, st.sent, false, maxSafeInteger⟩ h1 h2
    cases pr.outcome with
    | errored => exact ⟨h1', h2'⟩
    | eose =>
      dsimp only
      split
      · exact ⟨h1', h2'⟩
      · split
        · exact ⟨h1', h2'⟩
        · exact ih _ h1' h2'

theorem allEventsCollect_fold_inv (pagesOf : String → List PageResult)
    (initialUntil : Int) (eligible : List String) :
    ∀ (acc : List String × List NostrEvent),
      (acc.2.map (fun x => x.id)).Nodup → (∀ x ∈ acc.2, x.id ∈ acc.1) →
      (((eligible.foldl
          (fun (acc : List String × List NostrEvent) rurl =>
            ((allEventsRunRelay (pagesOf rurl) initialUntil acc.1 acc.2).globalSeen,
             (allEventsRunRelay (pagesOf rurl) initialUntil acc.1 acc.2).sent)) acc).2.map
          (fun x => x.id)).Nodup ∧
        ∀ x ∈ (eligible.foldl
          (fun (acc : List String × List NostrEvent) rurl =>
            ((allEventsRunRelay (pagesOf rurl) initialUntil acc.1 acc.2).globalSeen,
             (allEventsRunRelay (pagesOf rurl) initialUntil acc.1 acc.2).sent)) acc).2,
          x.id ∈ (eligible.foldl
            (fun (acc : List String × List NostrEvent) rurl =>
              ((allEventsRunRelay (pagesOf rurl) initialUntil acc.1 acc.2).globalSeen,
               (allEventsRunRelay (pagesOf rurl) initialUntil acc.1 acc.2).sent)) acc).1) := by
  induction eligible with
  | nil => intro acc h1 h2; exact ⟨h1, h2⟩
  | cons rurl rest ih =>
    intro acc h1 h2
    simp only [List.foldl_cons]
    obtain ⟨h1', h2'⟩ := allEventsLoop_inv (pagesOf rurl)
      ⟨initialUntil, [], acc.1, acc.2, [initialUntil], []⟩ h1 h2
    exact ih _ h1' h2'

theorem latestHandleEvent_inv (st : LatestScan) (e : NostrEvent)
    (h1 : (st.sent.map (fun x => x.id)).Nodup)
    (h2 : ∀ x ∈ st.sent, x.id ∈ st.globalSeen) :
    ((latestHandleEvent st e).sent.map (fun x => x.id)).Nodup ∧
      ∀ x ∈ (latestHandleEvent st e).sent,
        x.id ∈ (latestHandleEvent st e).globalSeen := by
  unfold latestHandleEvent
  split
  · exact ⟨h1, h2⟩
  · split
    · dsimp only
      split
      · exact ⟨h1, h2⟩
      · next hg =>
        have hgnot : e.id ∉ st.globalSeen := by simpa using hg
        exact sentInv_append h1 h2 hgnot
    · dsimp only
      split
      · exact ⟨h1, h2⟩
      · next hg =>
        have hgnot : e.id ∉ st.globalSeen := by simpa using hg
        exact sentInv_append h1 h2 hgnot

theorem latestScan_fold_inv (evs : List NostrEvent) :
    ∀ (st : LatestScan), (st.sent.map (fun x => x.id)).Nodup →
      (∀ x ∈ st.sent, x.id ∈ st.globalSeen) →
      ((evs.foldl latestHandleEvent st).sent.map (fun x => x.id)).Nodup ∧
        ∀ x ∈ (evs.foldl latestHandleEvent st).sent,
          x.id ∈ (evs.foldl latestHandleEvent st).globalSeen := by
  induction evs with
  | nil => intro st h1 h2; exact ⟨h1, h2⟩
  | cons e rest ih =>
    intro st h1 h2
    simp only [List.foldl_cons]
    obtain ⟨h1', h2'⟩ := latestHandleEvent_inv st e h1 h2
    exact ih _ h1' h2'

theorem latestLoop_inv (pages : List PageResult) :
    ∀ (st : LatestLoopState), (st.sent.map (fun x => x.id)).Nodup →
      (∀ x ∈ st.sent, x.id ∈ st.globalSeen) →
      (((latestLoop pages st).sent.map (fun x => x.id)).Nodup ∧
        ∀ x ∈ (latestLoop pages st).sent, x.id ∈ (latestLoop pages st).globalSeen) := by
  induction pages with
  | nil => intro st h1 h2; exact ⟨h1, h2⟩
  | cons pr rest ih =>
    intro st h1 h2
    unfold latestLoop
    obtain ⟨h1', h2'⟩ := latestScan_fold_inv pr.events
      ⟨st.localSeen, st.globalSeen, st.sent, 0, maxSafeInteger⟩ h1 h2
    cases pr.outcome with
    | errored => exact ⟨h1', h2'⟩
    | eose =>
      dsimp only
      split
      · exact ⟨h1', h2'⟩
      · split
        · exact ⟨h1', h2'⟩
        · exact ih _ h1' h2'

theorem latestCollect_fold_inv (pagesOf : String → List PageResult)
    (initialUntil limit : Int) (eligible : List String) :
    ∀ (acc : List String × List NostrEvent),
      (acc.2.map (fun x => x.id)).Nodup → (∀ x ∈ acc.2, x.id ∈ acc.1) →
      (((eligible.foldl
          (fun (acc : List String × List NostrEvent) rurl =>
            ((latestRunRelay (pagesOf rurl) initialUntil limit acc.1 acc.2).globalSeen,
             (latestRunRelay (pagesOf rurl) initialUntil limit acc.1 acc.2).sent)) acc).2.map
          (fun x => x.id)).Nodup ∧
        ∀ x ∈ (eligible.foldl
          (fun (acc : List String × List NostrEvent) rurl =>
            ((latestRunRelay (pagesOf rurl) initialUntil limit acc.1 acc.2).globalSeen,
             (latestRunRelay (pagesOf rurl) initialUntil limit acc.1 acc.2).sent)) acc).2,
          x.id ∈ (eligible.foldl
            (fun (acc : List String × List NostrEvent) rurl =>
              ((latestRunRelay (pagesOf rurl) initialUntil limit acc.1 acc.2).globalSeen,
               (latestRunRelay (pagesOf rurl) initialUntil limit acc.1 acc.2).sent)) acc).1) := by
  induction eligible with
  | nil => intro acc h1 h2; exact ⟨h1, h2⟩
  | cons rurl rest ih =>
    intro acc h1 h2
    simp only [List.foldl_cons]
    obtain ⟨h1', h2'⟩ := latestLoop_inv (pagesOf rurl)
      ⟨initialUntil, limit, [], acc.1, acc.2, [initialUntil], []⟩ h1 h2
    exact ih _ h1' h2'

theorem mergerDeduped_inner_inv (evs : List NostrEvent) :
    ∀ (acc : List NostrEvent × List String),
      (acc.1.map (fun x => x.id)).Nodup → (∀ x ∈ acc.1, x.id ∈ acc.2) →
      (((evs.foldl
          (fun (acc : List NostrEvent × List String) e =>
            if acc.2.contains e.id then acc else (acc.1 ++ [e], acc.2 ++ [e.id])) acc).1.map
          (fun x => x.id)).Nodup ∧
        ∀ x ∈ (evs.foldl
          (fun (acc : List NostrEvent × List String) e =>
            if acc.2.contains e.id then acc else (acc.1 ++ [e], acc.2 ++ [e.id])) acc).1,
          x.id ∈ (evs.foldl
            (fun (acc : List NostrEvent × List String) e =>
              if acc.2.contains e.id then acc else (acc.1 ++ [e], acc.2 ++ [e.id])) acc).2) := by
  induction evs with
  | nil => intro acc h1 h2; exact ⟨h1, h2⟩
  | cons e rest ih =>
    intro acc h1 h2
    simp only [List.foldl_cons]
    by_cases hc : acc.2.contains e.id
    · rw [if_pos hc]
      exact ih acc h1 h2
    · rw [if_neg hc]
      have hgnot : e.id ∉ acc.2 := by simpa using hc
      obtain ⟨h1', h2'⟩ := sentInv_append h1 h2 hgnot
      exact ih _ h1' h2'

theorem mergerDeduped_nodup (evsPerRelay : List (List NostrEvent)) :
    ((mergerDeduped evsPerRelay).map (fun x => x.id)).Nodup := by
  unfold mergerDeduped
  suffices h : ∀ (acc : List NostrEvent × List String),
      (acc.1.map (fun x => x.id)).Nodup → (∀ x ∈ acc.1, x.id ∈ acc.2) →
      (((evsPerRelay.foldl
          (fun (acc : List NostrEvent × List String) evs =>
            evs.foldl
              (fun (acc : List NostrEvent × List String) e =>
                if acc.2.contains e.id then acc else (acc.1 ++ [e], acc.2 ++ [e.id])) acc)
          acc).1.map (fun x => x.id)).Nodup) by
    exact h ([], []) (by simp) (by simp)
  induction evsPerRelay with
  | nil => intro acc h1 _; exact h1
  | cons evs rest ih =>
    intro acc h1 h2
    simp only [List.foldl_cons]
    obtain ⟨h1', h2'⟩ := mergerDeduped_inner_inv evs acc h1 h2
    exact ih _ h1' h2'

theorem verifiedLoop_eq_append_sublist (verify : NostrEvent → Bool) (limit : Int) :
    ∀ (l acc : List NostrEvent),
      ∃ s, verifiedLoop verify limit l acc = acc ++ s ∧ s.Sublist l := by
  intro l
  induction l with
  | nil => intro acc; exact ⟨[], by simp [verifiedLoop], List.Sublist.refl _⟩
  | cons e rest ih =>
    intro acc
    unfold verifiedLoop
    by_cases hv : verify e
    · rw [if_pos hv]
      by_cases hlim : ((acc ++ [e]).length : Int) ≥ limit
      · rw [if_pos hlim]
        exact ⟨[e], by simp, by simp⟩
      · rw [if_neg hlim]
        obtain ⟨s, hs, hsub⟩ := ih (acc ++ [e])
        exact ⟨e :: s, by simpa using hs, List.Sublist.cons₂ e hsub⟩
    · rw [if_neg hv]
      obtain ⟨s, hs, hsub⟩ := ih acc
      exact ⟨s, hs, List.Sublist.cons e hsub⟩

theorem sortEvents_map_id_nodup {evs : List NostrEvent}
    (h : (evs.map (fun x => x.id)).Nodup) :
    ((sortEvents evs).map (fun x => x.id)).Nodup := by
  have hperm : (sortEvents evs).Perm evs := List.mergeSort_perm evs createdAtDescLe
  exact ((hperm.map (fun x => x.id)).nodup_iff).mpr h

theorem latestPostProcess_map_id_nodup (verify : NostrEvent → Bool)
    (filled : FilledLatestOptions) (limit : Int) {evs : List NostrEvent}
    (h : (evs.map (fun x => x.id)).Nodup) :
    ((latestPostProcess verify filled limit evs).map (fun x => x.id)).Nodup := by
  have hs : ((sortEvents evs).map (fun x => x.id)).Nodup := sortEvents_map_id_nodup h
  unfold latestPostProcess
  split
  · exact List.Nodup.sublist
      (List.Sublist.map (fun x : NostrEvent => x.id) (List.take_sublist _ _)) hs
  · obtain ⟨s, hsr, hsub⟩ := verifiedLoop_eq_append_sublist verify limit (sortEvents evs) []
    rw [hsr]
    simpa using List.Nodup.sublist (List.Sublist.map (fun x : NostrEvent => x.id) hsub) hs

theorem dedupStep_inv (d : Nat × NostrEvent) (st : GlobalDedupState)
    (h1 : (st.out.map (fun x => x.id)).Nodup)
    (h2 : ∀ x ∈ st.out, x.id ∈ st.globalSeen) :
    ((dedupStep st d).out.map (fun x => x.id)).Nodup ∧
      ∀ x ∈ (dedupStep st d).out, x.id ∈ (dedupStep st d).globalSeen := by
  unfold dedupStep
  try dsimp only
  split
  · exact ⟨h1, h2⟩
  · try dsimp only
    split
    · exact ⟨h1, h2⟩
    · next hg =>
      have hgnot : d.2.id ∉ st.globalSeen := by simpa using hg
      exact sentInv_append h1 h2 hgnot

theorem dedupFold_inv (trace : List (Nat × NostrEvent)) :
    ∀ (st : GlobalDedupState), (st.out.map (fun x => x.id)).Nodup →
      (∀ x ∈ st.out, x.id ∈ st.globalSeen) →
      (((trace.foldl dedupStep st).out.map (fun x => x.id)).Nodup ∧
        ∀ x ∈ (trace.foldl dedupStep st).out,
          x.id ∈ (trace.foldl dedupStep st).globalSeen) := by
  induction trace with
  | nil => intro st h1 h2; exact ⟨h1, h2⟩
  | cons d rest ih =>
    intro st h1 h2
    simp only [List.foldl_cons]
    obtain ⟨h1', h2'⟩ := dedupStep_inv d st h1 h2
    exact ih _ h1' h2'

/-- C1: the sequence of event ids delivered to the caller contains no
duplicates — for an arbitrary interleaving of relay workers (`dedupRun`),
for `allEventsIterator`, `fetchAllEvents`, `fetchLatestEvents`, and within
each per-author record of `fetchLatestEventsPerAuthor` — regardless of how
many relays or paginated sub-requests delivered an event with a given id. -/
theorem dedup_no_duplicates_c1 :
    (∀ (numWorkers : Nat) (trace : List (Nat × NostrEvent)),
      ((dedupRun numWorkers trace).out.map (fun x => x.id)).Nodup) ∧
    (∀ (eligibleOf : List String → List String) (pagesOf : String → List PageResult)
        (relayUrls : List String) (s? u? : Option Int) (now : Int)
        (evs : List NostrEvent),
      allEventsIterator eligibleOf pagesOf relayUrls s? u? now = .ok evs →
      (evs.map (fun x => x.id)).Nodup) ∧
    (∀ (eligibleOf : List String → List String) (pagesOf : String → List PageResult)
        (relayUrls : List String) (s? u? : Option Int) (now : Int) (sort : Bool)
        (evs : List NostrEvent),
      fetchAllEvents eligibleOf pagesOf relayUrls s? u? now sort = .ok evs →
      (evs.map (fun x => x.id)).Nodup) ∧
    (∀ (verify : NostrEvent → Bool) (eligibleOf : List String → List String)
        (pagesOf : String → List PageResult) (relayUrls : List String)
        (initialUntil limit : Int) (opts : FetchLatestOptions) (evs : List NostrEvent),
      fetchLatestEvents verify eligibleOf pagesOf relayUrls initialUntil limit opts =
        .ok evs →
      (evs.map (fun x => x.id)).Nodup) ∧
    (∀ (verify : NostrEvent → Bool) (eligibleOf : List String → List String)
        (normalizeUrl : String → String) (pagesOf : String → List PageResult)
        (a2rs : AuthorsAndRelays) (initialUntil limit : Int)
        (opts : FetchLatestOptions) (records : List (String × List NostrEvent)),
      fetchLatestEventsPerAuthor verify eligibleOf normalizeUrl pagesOf a2rs
          initialUntil limit opts = .ok records →
      ∀ r ∈ records, (r.2.map (fun x => x.id)).Nodup) := by
  have hcollect : ∀ (pagesOf : String → List PageResult) (eligible : List String)
      (initialUntil : Int),
      ((allEventsCollect pagesOf eligible initialUntil).map (fun x => x.id)).Nodup := by
    intro pagesOf eligible initialUntil
    exact (allEventsCollect_fold_inv pagesOf initialUntil eligible ([], [])
      (by simp) (by simp)).1
  have hlatcollect : ∀ (pagesOf : String → List PageResult) (eligible : List String)
      (initialUntil limit : Int),
      ((latestCollect pagesOf eligible initialUntil limit).map (fun x => x.id)).Nodup := by
    intro pagesOf eligible initialUntil limit
    exact (latestCollect_fold_inv pagesOf initialUntil limit eligible ([], [])
      (by simp) (by simp)).1
  refine ⟨?_, ?_, ?_, ?_, ?_⟩
  · intro numWorkers trace
    exact (dedupFold_inv trace ⟨List.replicate numWorkers [], [], []⟩ (by simp) (by simp)).1
  · intro eligibleOf pagesOf relayUrls s? u? now evs h
    unfold allEventsIterator at h
    cases hv : validateAllEvents relayUrls s? u? with
    | error e => rw [hv] at h; cases h
    | ok u =>
      rw [hv] at h
      simp only [Except.ok.injEq] at h
      subst h
      exact hcollect pagesOf (eligibleOf relayUrls) (u?.getD now)
  · intro eligibleOf pagesOf relayUrls s? u? now sort evs h
    unfold fetchAllEvents allEventsIterator at h
    cases hv : validateAllEvents relayUrls s? u? with
    | error e => rw [hv] at h; cases h
    | ok u =>
      rw [hv] at h
      simp only [Except.ok.injEq] at h
      subst h
      cases sort with
      | false =>
        simpa using hcollect pagesOf (eligibleOf relayUrls) (u?.getD now)
      | true =>
        simpa using sortEvents_map_id_nodup
          (hcollect pagesOf (eligibleOf relayUrls) (u?.getD now))
  · intro verify eligibleOf pagesOf relayUrls initialUntil limit opts evs h
    unfold fetchLatestEvents at h
    cases hv : validateLatest relayUrls limit with
    | error e => rw [hv] at h; cases h
    | ok u =>
      rw [hv] at h
      simp only [Except.ok.injEq] at h
      subst h
      exact latestPostProcess_map_id_nodup verify (fillLatestOptions opts) limit
        (hlatcollect pagesOf (eligibleOf relayUrls) initialUntil limit)
  · intro verify eligibleOf normalizeUrl pagesOf a2rs initialUntil limit opts records h
    unfold fetchLatestEventsPerAuthor at h
    cases hv : validatePerAuthor limit with
    | error e => rw [hv] at h; cases h
    | ok u =>
      rw [hv] at h
      simp only [Except.ok.injEq] at h
      subst h
      intro r hr
      obtain ⟨pk, _, hpk⟩ := List.mem_map.mp hr
      subst hpk
      exact latestPostProcess_map_id_nodup verify (fillLatestOptions opts) limit
        (mergerDeduped_nodup _)

theorem dedup_no_duplicates_c1_witness :
    allEventsIterator (fun urls => urls)
      (fun _ => [⟨[⟨"1", "p", 50, 1, [], "", ""⟩, ⟨"1", "p", 50, 1, [], "", ""⟩,
        ⟨"2", "p", 40, 1, [], "", ""⟩], .eose, false⟩]) ["r"] none none 100 =
      .ok [⟨"1", "p", 50, 1, [], "", ""⟩, ⟨"2", "p", 40, 1, [], "", ""⟩] ∧
    (([⟨"1", "p", 50, 1, [], "", ""⟩, ⟨"2", "p", 40, 1, [], "", ""⟩] :
      List NostrEvent).map (fun x => x.id)).Nodup ∧
    fetchLatestEvents (fun _ => true) (fun urls => urls) (fun _ => []) [] 0 1 {} =
      .ok [] ∧
    fetchLatestEventsPerAuthor (fun _ => true) (fun urls => urls) (fun u => u)
      (fun _ => []) (.forAllAuthors [] []) 0 1 {} = .ok [] := by
  have h1 : allEventsIterator (fun urls => urls)
      (fun _ => [⟨[⟨"1", "p", 50, 1, [], "", ""⟩, ⟨"1", "p", 50, 1, [], "", ""⟩,
        ⟨"2", "p", 40, 1, [], "", ""⟩], .eose, false⟩]) ["r"] none none 100 =
      .ok [⟨"1", "p", 50, 1, [], "", ""⟩, ⟨"2", "p", 40, 1, [], "", ""⟩] := by rfl
  have h3 : fetchLatestEvents (fun _ => true) (fun urls => urls) (fun _ => [])
      [] 0 1 {} = .ok ([] : List NostrEvent) := by
    simp [fetchLatestEvents, validateLatest, assertReq, latestCollect, latestPostProcess,
      sortEvents, fillLatestOptions, verifiedLoop]
  have h4 : fetchLatestEventsPerAuthor (fun _ => true) (fun urls => urls) (fun u => u)
      (fun _ => []) (.forAllAuthors [] []) 0 1 {} =
      .ok ([] : List (String × List NostrEvent)) := by rfl
  refine ⟨h1, ?_, h3, h4⟩
  exact dedup_no_duplicates_c1.2.1 (fun urls => urls)
    (fun _ => [⟨[⟨"1", "p", 50, 1, [], "", ""⟩, ⟨"1", "p", 50, 1, [], "", ""⟩,
      ⟨"2", "p", 40, 1, [], "", ""⟩], .eose, false⟩]) ["r"] none none 100 _ h1

theorem createdAtDescLe_trans (a b c : NostrEvent) (h1 : createdAtDescLe a b = true)
    (h2 : createdAtDescLe b c = true) : createdAtDescLe a c = true := by
  simp only [createdAtDescLe, decide_eq_true_eq] at h1 h2 ⊢
  omega

theorem createdAtDescLe_total (a b : NostrEvent) :
    (createdAtDescLe a b || createdAtDescLe b a) = true := by
  simp only [createdAtDescLe, Bool.or_eq_true, decide_eq_true_eq]
  omega

theorem sortEvents_pairwise (l : List NostrEvent) :
    (sortEvents l).Pairwise (fun a b => b.created_at ≤ a.created_at) := by
  have h := List.sorted_mergeSort createdAtDescLe_trans createdAtDescLe_total l
  exact h.imp (fun hab => by simpa [createdAtDescLe] using hab)

theorem sortEvents_stable (l : List NostrEvent) (t : Int) :
    (sortEvents l).filter (fun e => decide (e.created_at = t)) =
      l.filter (fun e => decide (e.created_at = t)) := by
  have hpw : (l.filter (fun e => decide (e.created_at = t))).Pairwise
      (fun a b => createdAtDescLe a b = true) := by
    have hall : ∀ e ∈ l.filter (fun e => decide (e.created_at = t)), e.created_at = t := by
      intro e he
      simpa using (List.mem_filter.mp he).2
    refine List.pairwise_of_forall_mem_list ?_
    intro a ha b hb
    simp [createdAtDescLe, hall a ha, hall b hb]
  have hsub : (l.filter (fun e => decide (e.created_at = t))).Sublist
      (sortEvents l) :=
    List.mergeSort_stable createdAtDescLe_trans createdAtDescLe_total hpw
      (List.filter_sublist l)
  have hsub2 : (l.filter (fun e => decide (e.created_at = t))).Sublist
      ((sortEvents l).filter (fun e => decide (e.created_at = t))) := by
    have h1 := List.Sublist.filter (fun e => decide (e.created_at = t)) hsub
    simpa using h1
  have hperm : ((sortEvents l).filter (fun e => decide (e.created_at = t))).Perm
      (l.filter (fun e => decide (e.created_at = t))) :=
    List.Perm.filter _ (List.mergeSort_perm l createdAtDescLe)
  exact (List.Sublist.eq_of_length hsub2 hperm.length_eq.symm).symm

theorem latestPostProcess_pairwise (verify : NostrEvent → Bool)
    (filled : FilledLatestOptions) (limit : Int) (evs : List NostrEvent) :
    (latestPostProcess verify filled limit evs).Pairwise
      (fun a b => b.created_at ≤ a.created_at) := by
  have hs := sortEvents_pairwise evs
  unfold latestPostProcess
  split
  · exact List.Pairwise.sublist (List.take_sublist _ _) hs
  · obtain ⟨s, hsr, hsub⟩ := verifiedLoop_eq_append_sublist verify limit (sortEvents evs) []
    rw [hsr]
    simpa using List.Pairwise.sublist hsub hs

/-- C4: `fetchAllEvents` with `sort: true`, `fetchLatestEvents`, and the
events array of every record of `fetchLatestEventsPerAuthor` are sorted by
`created_at` descending; the sort is stable, so events with equal
`created_at` keep their arrival (channel) order: filtering the sorted list
by any fixed `created_at` value returns exactly the same subsequence as
filtering the arrival list. -/
theorem sorted_output_c4 :
    (∀ (l : List NostrEvent),
      (sortEvents l).Pairwise (fun a b => b.created_at ≤ a.created_at)) ∧
    (∀ (l : List NostrEvent) (t : Int),
      (sortEvents l).filter (fun e => decide (e.created_at = t)) =
        l.filter (fun e => decide (e.created_at = t))) ∧
    (∀ (eligibleOf : List String → List String) (pagesOf : String → List PageResult)
        (relayUrls : List String) (s? u? : Option Int) (now : Int)
        (evs : List NostrEvent),
      fetchAllEvents eligibleOf pagesOf relayUrls s? u? now true = .ok evs →
      evs.Pairwise (fun a b => b.created_at ≤ a.created_at)) ∧
    (∀ (verify : NostrEvent → Bool) (eligibleOf : List String → List String)
        (pagesOf : String → List PageResult) (relayUrls : List String)
        (initialUntil limit : Int) (opts : FetchLatestOptions) (evs : List NostrEvent),
      fetchLatestEvents verify eligibleOf pagesOf relayUrls initialUntil limit opts =
        .ok evs →
      evs.Pairwise (fun a b => b.created_at ≤ a.created_at)) ∧
    (∀ (verify : NostrEvent → Bool) (eligibleOf : List String → List String)
        (normalizeUrl : String → String) (pagesOf : String → List PageResult)
        (a2rs : AuthorsAndRelays) (initialUntil limit : Int)
        (opts : FetchLatestOptions) (records : List (String × List NostrEvent)),
      fetchLatestEventsPerAuthor verify eligibleOf normalizeUrl pagesOf a2rs
          initialUntil limit opts = .ok records →
      ∀ r ∈ records, r.2.Pairwise (fun a b => b.created_at ≤ a.created_at)) := by
  refine ⟨sortEvents_pairwise, sortEvents_stable, ?_, ?_, ?_⟩
  · intro eligibleOf pagesOf relayUrls s? u? now evs h
    unfold fetchAllEvents allEventsIterator at h
    cases hv : validateAllEvents relayUrls s? u? with
    | error e => rw [hv] at h; cases h
    | ok u =>
      rw [hv] at h
      simp only [Except.ok.injEq, if_true] at h
      subst h
      exact sortEvents_pairwise _
  · intro verify eligibleOf pagesOf relayUrls initialUntil limit opts evs h
    unfold fetchLatestEvents at h
    cases hv : validateLatest relayUrls limit with
    | error e => rw [hv] at h; cases h
    | ok u =>
      rw [hv] at h
      simp only [Except.ok.injEq] at h
      subst h
      exact latestPostProcess_pairwise verify _ limit _
  · intro verify eligibleOf normalizeUrl pagesOf a2rs initialUntil limit opts records h
    unfold fetchLatestEventsPerAuthor at h
    cases hv : validatePerAuthor limit with
    | error e => rw [hv] at h; cases h
    | ok u =>
      rw [hv] at h
      simp only [Except.ok.injEq] at h
      subst h
      intro r hr
      obtain ⟨pk, _, hpk⟩ := List.mem_map.mp hr
      subst hpk
      exact latestPostProcess_pairwise verify _ limit _

theorem sorted_output_c4_witness :
    (sortEvents [⟨"1", "p", 10, 1, [], "", ""⟩, ⟨"2", "p", 30, 1, [], "", ""⟩,
        ⟨"3", "p", 30, 1, [], "", ""⟩]).Pairwise
      (fun a b => b.created_at ≤ a.created_at) ∧
    (sortEvents [⟨"1", "p", 10, 1, [], "", ""⟩, ⟨"2", "p", 30, 1, [], "", ""⟩,
        ⟨"3", "p", 30, 1, [], "", ""⟩]).filter (fun e => decide (e.created_at = 30)) =
      [⟨"2", "p", 30, 1, [], "", ""⟩, ⟨"3", "p", 30, 1, [], "", ""⟩] ∧
    fetchAllEvents (fun urls => urls) (fun _ => []) [] none none 0 true = .ok [] := by
  refine ⟨sorted_output_c4.1 _, ?_, ?_⟩
  · have h := sorted_output_c4.2.1 [⟨"1", "p", 10, 1, [], "", ""⟩,
      ⟨"2", "p", 30, 1, [], "", ""⟩, ⟨"3", "p", 30, 1, [], "", ""⟩] 30
    rw [h]
    rfl
  · have hok : fetchAllEvents (fun urls => urls) (fun _ => []) [] none none 0 true =
        .ok [] := by
      simp [fetchAllEvents, allEventsIterator, validateAllEvents, assertReq,
        allEventsCollect, sortEvents, timeRangeValid]
    exact hok

theorem verifiedLoop_eq_filter_take (verify : NostrEvent → Bool) :
    ∀ (l acc : List NostrEvent) (limit : Int), (acc.length : Int) < limit →
      verifiedLoop verify limit l acc =
        acc ++ (l.filter verify).take (limit - acc.length).toNat := by
  intro l
  induction l with
  | nil => intro acc limit _; simp [verifiedLoop]
  | cons e rest ih =>
    intro acc limit hlt
    unfold verifiedLoop
    by_cases hv : verify e
    · rw [if_pos hv]
      by_cases hlim : ((acc ++ [e]).length : Int) ≥ limit
      · rw [if_pos hlim]
        simp only [List.length_append, List.length_cons, List.length_nil] at hlim
        have h1 : (limit - acc.length).toNat = 1 := by push_cast at hlim; omega
        simp [List.filter_cons, hv, h1]
      · rw [if_neg hlim]
        simp only [List.length_append, List.length_cons, List.length_nil] at hlim
        have hlt' : (((acc ++ [e]).length : Int)) < limit := by
          simp only [List.length_append, List.length_cons, List.length_nil]
          push_cast
          push_cast at hlim
          omega
        rw [ih (acc ++ [e]) limit hlt']
        have h2 : (limit - acc.length).toNat = (limit - ((acc ++ [e]).length : Int)).toNat + 1 := by
          simp only [List.length_append, List.length_cons, List.length_nil]
          push_cast
          push_cast at hlim
          omega
        simp only [List.filter_cons, hv, if_true, h2, List.take_succ_cons, List.append_assoc,
          List.singleton_append]
    · rw [if_neg hv]
      rw [ih acc limit hlt]
      simp [List.filter_cons, hv]

theorem latestPostProcess_reduced (verify : NostrEvent → Bool)
    (filled : FilledLatestOptions) (limit : Int) (evs : List NostrEvent)
    (hlim : 0 < limit) (hskip : filled.skipVerification = false)
    (hred : filled.reduceVerification = true) :
    latestPostProcess verify filled limit evs =
      ((sortEvents evs).filter verify).take limit.toNat := by
  unfold latestPostProcess
  rw [if_neg (by simp [hskip, hred])]
  rw [verifiedLoop_eq_filter_take verify (sortEvents evs) [] limit (by simpa using hlim)]
  simp

theorem latestPostProcess_plain (verify : NostrEvent → Bool)
    (filled : FilledLatestOptions) (limit : Int) (evs : List NostrEvent)
    (h : filled.skipVerification = true ∨ filled.reduceVerification = false) :
    latestPostProcess verify filled limit evs = (sortEvents evs).take limit.toNat := by
  unfold latestPostProcess
  rcases h with h | h <;> rw [if_pos (by simp [h])]

/-- C3: when `reduceVerification` is on and `skipVerification` off, the
per-relay driver is invoked with `skipVerification = true`
(`subOptsSkipVerification`), and `fetchLatestEvents` (and each per-author
merger record) returns the first `limit` events, in `created_at`-descending
order over the deduped collection, whose signature verifies — invalid
signatures are skipped, not counted.  When `skipVerification` is on or
`reduceVerification` off, the first `limit` events of the sorted deduped
collection are returned as-is. -/
theorem reduce_verification_c3 (verify : NostrEvent → Bool)
    (eligibleOf : List String → List String) (pagesOf : String → List PageResult)
    (relayUrls : List String) (relayToAuthors : List (String × List String))
    (resolvedOf : List (List (String × List NostrEvent))) (pubkey : String)
    (initialUntil limit : Int) (opts : FetchLatestOptions) (hlim : 0 < limit) :
    ((fillLatestOptions opts).skipVerification = false →
      (fillLatestOptions opts).reduceVerification = true →
      subOptsSkipVerification (fillLatestOptions opts) = true ∧
      fetchLatestEvents verify eligibleOf pagesOf relayUrls initialUntil limit opts =
        .ok (((sortEvents (latestCollect pagesOf (eligibleOf relayUrls) initialUntil
          limit)).filter verify).take limit.toNat) ∧
      mergerRecord verify (fillLatestOptions opts) limit relayToAuthors resolvedOf pubkey =
        ((sortEvents (mergerDeduped
          ((relayToAuthors.zip resolvedOf).filterMap
            (fun p => if p.1.2.contains pubkey then some ((p.2.lookup pubkey).getD [])
              else none)))).filter verify).take limit.toNat) ∧
    ((fillLatestOptions opts).skipVerification = true ∨
        (fillLatestOptions opts).reduceVerification = false →
      fetchLatestEvents verify eligibleOf pagesOf relayUrls initialUntil limit opts =
        .ok ((sortEvents (latestCollect pagesOf (eligibleOf relayUrls) initialUntil
          limit)).take limit.toNat) ∧
      mergerRecord verify (fillLatestOptions opts) limit relayToAuthors resolvedOf pubkey =
        (sortEvents (mergerDeduped
          ((relayToAuthors.zip resolvedOf).filterMap
            (fun p => if p.1.2.contains pubkey then some ((p.2.lookup pubkey).getD [])
              else none)))).take limit.toNat) := by
  have hval : validateLatest relayUrls limit = .ok () := by
    unfold validateLatest assertReq
    have : decide (limit > 0) = true := by simpa using hlim
    simp [this]
  constructor
  · intro hskip hred
    refine ⟨by simp [subOptsSkipVerification, hskip, hred], ?_, ?_⟩
    · unfold fetchLatestEvents
      rw [hval]
      dsimp only
      rw [latestPostProcess_reduced verify _ limit _ hlim hskip hred]
    · unfold mergerRecord
      rw [latestPostProcess_reduced verify _ limit _ hlim hskip hred]
  · intro h
    refine ⟨?_, ?_⟩
    · unfold fetchLatestEvents
      rw [hval]
      dsimp only
      rw [latestPostProcess_plain verify _ limit _ h]
    · unfold mergerRecord
      rw [latestPostProcess_plain verify _ limit _ h]

theorem reduce_verification_c3_witness :
    subOptsSkipVerification (fillLatestOptions {}) = true ∧
    fetchLatestEvents (fun _ => false) (fun urls => urls) (fun _ => []) [] 0 2 {} =
      .ok [] ∧
    mergerRecord (fun _ => true)
      (fillLatestOptions ⟨some true, none, none, none, none⟩) 2 [] [] "a" = [] := by
  have h1 := reduce_verification_c3 (fun _ => false) (fun urls => urls) (fun _ => [])
    [] [] [] "a" 0 2 {} (by norm_num)
  have h2 := reduce_verification_c3 (fun _ => true) (fun urls => urls) (fun _ => [])
    [] [] [] "a" 0 2 ⟨some true, none, none, none, none⟩ (by norm_num)
  obtain ⟨hs, hf, -⟩ := h1.1 rfl rfl
  refine ⟨hs, ?_, ?_⟩
  · rw [hf]
    simp [latestCollect, sortEvents]
  · obtain ⟨-, hm⟩ := h2.2 (Or.inl rfl)
    rw [hm]
    simp [mergerDeduped, sortEvents]

theorem verifiedLoop_length_le (verify : NostrEvent → Bool) (limit : Int)
    (l acc : List NostrEvent) (hlt : (acc.length : Int) < limit) :
    (((verifiedLoop verify limit l acc).length : Int)) ≤ limit := by
  rw [verifiedLoop_eq_filter_take verify l acc limit hlt]
  have hle := List.length_take_le (limit - acc.length).toNat (l.filter verify)
  simp only [List.length_append]
  push_cast
  omega

theorem latestPostProcess_length_le (verify : NostrEvent → Bool)
    (filled : FilledLatestOptions) (limit : Int) (evs : List NostrEvent)
    (hlim : 0 < limit) :
    ((latestPostProcess verify filled limit evs).length : Int) ≤ limit := by
  unfold latestPostProcess
  split
  · have hle := List.length_take_le limit.toNat (sortEvents evs)
    push_cast
    omega
  · exact verifiedLoop_length_le verify limit (sortEvents evs) [] (by simpa using hlim)

/-- C7: for every call of `fetchLatestEventsPerAuthor` with `limit > 0`,
every emitted record's events array has length at most `limit`. -/
theorem per_author_cap_c7 (verify : NostrEvent → Bool)
    (eligibleOf : List String → List String) (normalizeUrl : String → String)
    (pagesOf : String → List PageResult) (a2rs : AuthorsAndRelays)
    (initialUntil limit : Int) (opts : FetchLatestOptions)
    (records : List (String × List NostrEvent)) (hlim : 0 < limit)
    (h : fetchLatestEventsPerAuthor verify eligibleOf normalizeUrl pagesOf a2rs
      initialUntil limit opts = .ok records) :
    ∀ r ∈ records, (r.2.length : Int) ≤ limit := by
  unfold fetchLatestEventsPerAuthor at h
  cases hv : validatePerAuthor limit with
  | error e => rw [hv] at h; cases h
  | ok u =>
    rw [hv] at h
    simp only [Except.ok.injEq] at h
    subst h
    intro r hr
    obtain ⟨pk, _, hpk⟩ := List.mem_map.mp hr
    subst hpk
    exact latestPostProcess_length_le verify _ limit _ hlim

theorem per_author_cap_c7_witness :
    (([] : List NostrEvent).length : Int) ≤ 1 ∧
    fetchLatestEventsPerAuthor (fun _ => true) (fun urls => urls) (fun u => u)
      (fun _ => []) (.forAllAuthors ["a"] []) 0 1 {} = .ok [("a", [])] := by
  have hok : fetchLatestEventsPerAuthor (fun _ => true) (fun urls => urls) (fun u => u)
      (fun _ => []) (.forAllAuthors ["a"] []) 0 1 {} = .ok [("a", [])] := by
    simp [fetchLatestEventsPerAuthor, validatePerAuthor, assertReq,
      mapAvailableRelayToAuthors, mergerRecord, mergerDeduped, latestPostProcess,
      sortEvents, fillLatestOptions, verifiedLoop]
  refine ⟨?_, hok⟩
  have h := per_author_cap_c7 (fun _ => true) (fun urls => urls) (fun u => u)
    (fun _ => []) (.forAllAuthors ["a"] []) 0 1 {} [("a", [])] (by norm_num) hok
  simpa using h ("a", []) (by simp)

theorem mergerRecord_of_no_relay (verify : NostrEvent → Bool)
    (filled : FilledLatestOptions) (limit : Int)
    (relayToAuthors : List (String × List String))
    (resolvedOf : List (List (String × List NostrEvent))) (pk : String)
    (h : ∀ p ∈ relayToAuthors, pk ∉ p.2) :
    mergerRecord verify filled limit relayToAuthors resolvedOf pk = [] := by
  unfold mergerRecord
  have hnil : (relayToAuthors.zip resolvedOf).filterMap
      (fun p => if p.1.2.contains pk then some ((p.2.lookup pk).getD []) else none) =
      [] := by
    rw [List.filterMap_eq_nil]
    intro q hq
    obtain ⟨q1, q2⟩ := q
    have hq1 : q1 ∈ relayToAuthors := (List.mem_zip hq).1
    have hmem2 : pk ∉ q1.2 := h q1 hq1
    simp [hmem2]
  rw [hnil]
  simp [mergerDeduped, latestPostProcess, sortEvents, verifiedLoop]

/-- C10: `fetchLatestEventsPerAuthor` emits exactly one record per author
entry of `authorsAndRelays` (the record keys are exactly `allAuthors`, in
order), even for an author carried by no eligible relay — that author's
record has an empty events array, and `fetchLastEventPerAuthor`
correspondingly yields `(author, none)` rather than omitting the author. -/
theorem per_author_record_c10 :
    (∀ (verify : NostrEvent → Bool) (eligibleOf : List String → List String)
        (normalizeUrl : String → String) (pagesOf : String → List PageResult)
        (a2rs : AuthorsAndRelays) (initialUntil limit : Int)
        (opts : FetchLatestOptions) (records : List (String × List NostrEvent)),
      fetchLatestEventsPerAuthor verify eligibleOf normalizeUrl pagesOf a2rs
          initialUntil limit opts = .ok records →
      records.map (fun r => r.1) =
        (mapAvailableRelayToAuthors eligibleOf normalizeUrl a2rs).2 ∧
      ∀ pk ∈ (mapAvailableRelayToAuthors eligibleOf normalizeUrl a2rs).2,
        (∀ p ∈ (mapAvailableRelayToAuthors eligibleOf normalizeUrl a2rs).1, pk ∉ p.2) →
        (pk, ([] : List NostrEvent)) ∈ records) ∧
    (∀ (eligibleOf : List String → List String) (normalizeUrl : String → String)
        (authors relayUrls : List String),
      (mapAvailableRelayToAuthors eligibleOf normalizeUrl
        (.forAllAuthors authors relayUrls)).2 = authors) ∧
    (∀ (eligibleOf : List String → List String) (normalizeUrl : String → String)
        (pairs : List (String × List String)),
      (mapAvailableRelayToAuthors eligibleOf normalizeUrl (.perAuthor pairs)).2 =
        pairs.map (fun p => p.1)) ∧
    (∀ (verify : NostrEvent → Bool) (eligibleOf : List String → List String)
        (normalizeUrl : String → String) (pagesOf : String → List PageResult)
        (a2rs : AuthorsAndRelays) (initialUntil : Int) (opts : FetchLatestOptions)
        (records' : List (String × Option NostrEvent)),
      fetchLastEventPerAuthor verify eligibleOf normalizeUrl pagesOf a2rs
          initialUntil opts = .ok records' →
      records'.map (fun r => r.1) =
        (mapAvailableRelayToAuthors eligibleOf normalizeUrl a2rs).2 ∧
      ∀ pk ∈ (mapAvailableRelayToAuthors eligibleOf normalizeUrl a2rs).2,
        (∀ p ∈ (mapAvailableRelayToAuthors eligibleOf normalizeUrl a2rs).1, pk ∉ p.2) →
        (pk, (none : Option NostrEvent)) ∈ records') := by
  have hmain : ∀ (verify : NostrEvent → Bool) (eligibleOf : List String → List String)
      (normalizeUrl : String → String) (pagesOf : String → List PageResult)
      (a2rs : AuthorsAndRelays) (initialUntil limit : Int)
      (opts : FetchLatestOptions) (records : List (String × List NostrEvent)),
      fetchLatestEventsPerAuthor verify eligibleOf normalizeUrl pagesOf a2rs
          initialUntil limit opts = .ok records →
      records.map (fun r => r.1) =
        (mapAvailableRelayToAuthors eligibleOf normalizeUrl a2rs).2 ∧
      ∀ pk ∈ (mapAvailableRelayToAuthors eligibleOf normalizeUrl a2rs).2,
        (∀ p ∈ (mapAvailableRelayToAuthors eligibleOf normalizeUrl a2rs).1, pk ∉ p.2) →
        (pk, ([] : List NostrEvent)) ∈ records := by
    intro verify eligibleOf normalizeUrl pagesOf a2rs initialUntil limit opts records h
    unfold fetchLatestEventsPerAuthor at h
    cases hv : validatePerAuthor limit with
    | error e => rw [hv] at h; cases h
    | ok u =>
      rw [hv] at h
      simp only [Except.ok.injEq] at h
      subst h
      constructor
      · simp [Function.comp_def]
      · intro pk hpk hnone
        have hrec : mergerRecord verify (fillLatestOptions opts) limit
            (mapAvailableRelayToAuthors eligibleOf normalizeUrl a2rs).1
            ((mapAvailableRelayToAuthors eligibleOf normalizeUrl a2rs).1.map
              (fun p => perAuthorRunRelay p.2 (pagesOf p.1) initialUntil limit)) pk =
            [] :=
          mergerRecord_of_no_relay verify (fillLatestOptions opts) limit _ _ pk hnone
        have hmem : (pk, mergerRecord verify (fillLatestOptions opts) limit
            (mapAvailableRelayToAuthors eligibleOf normalizeUrl a2rs).1
            ((mapAvailableRelayToAuthors eligibleOf normalizeUrl a2rs).1.map
              (fun p => perAuthorRunRelay p.2 (pagesOf p.1) initialUntil limit)) pk) ∈
            (mapAvailableRelayToAuthors eligibleOf normalizeUrl a2rs).2.map
              (fun pk => (pk, mergerRecord verify (fillLatestOptions opts) limit
                (mapAvailableRelayToAuthors eligibleOf normalizeUrl a2rs).1
                ((mapAvailableRelayToAuthors eligibleOf normalizeUrl a2rs).1.map
                  (fun p => perAuthorRunRelay p.2 (pagesOf p.1) initialUntil limit)) pk)) :=
          List.mem_map_of_mem _ hpk
        rw [hrec] at hmem
        exact hmem
  refine ⟨hmain, fun _ _ _ _ => rfl, fun _ _ _ => rfl, ?_⟩
  intro verify eligibleOf normalizeUrl pagesOf a2rs initialUntil opts records' h
  unfold fetchLastEventPerAuthor at h
  cases hin : fetchLatestEventsPerAuthor verify eligibleOf normalizeUrl pagesOf a2rs
      initialUntil 1 (lastEventOptions opts) with
  | error e => rw [hin] at h; cases h
  | ok records =>
    rw [hin] at h
    simp only [Except.ok.injEq] at h
    subst h
    obtain ⟨hmap, hempty⟩ := hmain verify eligibleOf normalizeUrl pagesOf a2rs
      initialUntil 1 (lastEventOptions opts) records hin
    constructor
    · rw [List.map_map]
      exact hmap
    · intro pk hpk hnone
      have hm := hempty pk hpk hnone
      have := List.mem_map_of_mem (fun r : String × List NostrEvent =>
        (r.1, r.2.head?)) hm
      simpa using this

theorem per_author_record_c10_witness :
    fetchLatestEventsPerAuthor (fun _ => true) (fun _ => []) (fun u => u)
      (fun _ => []) (.forAllAuthors ["a", "b"] ["r"]) 0 1 {} =
      .ok [("a", []), ("b", [])] ∧
    [("a", ([] : List NostrEvent)), ("b", [])].map (fun r => r.1) = ["a", "b"] ∧
    ("a", ([] : List NostrEvent)) ∈ [("a", ([] : List NostrEvent)), ("b", [])] ∧
    fetchLastEventPerAuthor (fun _ => true) (fun _ => []) (fun u => u)
      (fun _ => []) (.forAllAuthors ["a", "b"] ["r"]) 0 {} =
      .ok [("a", none), ("b", none)] ∧
    ("a", (none : Option NostrEvent)) ∈
      [("a", (none : Option NostrEvent)), ("b", none)] := by
  have hok : fetchLatestEventsPerAuthor (fun _ => true) (fun _ => []) (fun u => u)
      (fun _ => []) (.forAllAuthors ["a", "b"] ["r"]) 0 1 {} =
      .ok [("a", []), ("b", [])] := by
    simp [fetchLatestEventsPerAuthor, validatePerAuthor, assertReq,
      mapAvailableRelayToAuthors, mergerRecord, mergerDeduped, latestPostProcess,
      sortEvents, fillLatestOptions, verifiedLoop]
  have hok' : fetchLastEventPerAuthor (fun _ => true) (fun _ => []) (fun u => u)
      (fun _ => []) (.forAllAuthors ["a", "b"] ["r"]) 0 {} =
      .ok [("a", none), ("b", none)] := by
    simp [fetchLastEventPerAuthor, fetchLatestEventsPerAuthor, validatePerAuthor,
      assertReq, mapAvailableRelayToAuthors, mergerRecord, mergerDeduped,
      latestPostProcess, sortEvents, fillLatestOptions, verifiedLoop, lastEventOptions]
  have h1 := (per_author_record_c10.1 (fun _ => true) (fun _ => []) (fun u => u)
    (fun _ => []) (.forAllAuthors ["a", "b"] ["r"]) 0 1 {} [("a", []), ("b", [])] hok)
  have h2 := (per_author_record_c10.2.2.2 (fun _ => true) (fun _ => []) (fun u => u)
    (fun _ => []) (.forAllAuthors ["a", "b"] ["r"]) 0 {} [("a", none), ("b", none)] hok')
  exact ⟨hok, h1.1, h1.2 "a" (by simp [mapAvailableRelayToAuthors])
    (by simp [mapAvailableRelayToAuthors]), hok',
    h2.2 "a" (by simp [mapAvailableRelayToAuthors])
    (by simp [mapAvailableRelayToAuthors])⟩
